import Mathlib

/-!
Verification of the DEF-netlist-to-hypergraph converter (netlist2graph.py)
and the placement injector (loc2def.py).

Strings are embedded as `List Char`.  The handful of regular expressions the
source uses are embedded by a small backtracking matcher (`rmatch`) whose
alternative-exploration order matches Python's `re` engine (greedy `\s+`,
`\s*`, `\d+` try the longest extension first; lazy `(.*?)` tries the shortest
first; `.` never matches a newline; `re.search` returns the leftmost match).
The matcher is fuel-indexed to stay structurally recursive; the fuel passed at
every call site strictly exceeds the longest possible backtracking chain, so
it never runs out.  Machine floats of the injector's position sequence are
modelled as integers, which is exact for the integer coordinates every claim
speaks about (Python applies `int(x)` truncation before printing).
-/

/-- Python's `\s` / `str.isspace` character class (ASCII part, which is all
the DEF grammar uses): space, tab, newline, carriage return, vertical tab,
form feed. -/
def pyIsSpace (c : Char) : Bool :=
  c = ' ' || c = '\t' || c = '\n' || c = '\r' || c = '\x0b' || c = '\x0c'

/-- Python's `\w` word-character class (ASCII part), used for `\b` word
boundaries. -/
def pyIsWord (c : Char) : Bool :=
  c.isAlphanum || c = '_'

/-- Python `str.strip()`: remove leading and trailing whitespace. -/
def pyStrip (s : List Char) : List Char :=
  ((s.dropWhile pyIsSpace).reverse.dropWhile pyIsSpace).reverse

/-- Auxiliary for `pySplit`; the fuel bounds the recursion depth and is
always at least the input length at every call. -/
def pySplitAux : Nat → List Char → List (List Char)
  | 0, _ => []
  | fuel + 1, [] => (fun _ => []) fuel
  | fuel + 1, c :: t =>
    if pyIsSpace c then pySplitAux fuel t
    else (c :: t.takeWhile (fun d => !pyIsSpace d)) ::
      pySplitAux fuel (t.dropWhile (fun d => !pyIsSpace d))

/-- Python `str.split()` with no argument: split on whitespace runs,
discarding empty pieces. -/
def pySplit (s : List Char) : List (List Char) :=
  pySplitAux s.length s

/-- Auxiliary for `pyFind`: index of the first occurrence, counting from
`pos`. -/
def pyFindAux (pat : List Char) : List Char → Nat → Option Nat
  | [], pos => if pat.isPrefixOf ([] : List Char) then some pos else none
  | c :: t, pos =>
    if pat.isPrefixOf (c :: t) then some pos else pyFindAux pat t (pos + 1)

/-- Python `str.find`: index of the first occurrence of `pat`, `-1` when
absent. -/
def pyFind (pat s : List Char) : Int :=
  match pyFindAux pat s 0 with
  | some n => (n : Int)
  | none => -1

/-- Python slice `s[a:b]` for integer bounds: negative indices count from the
end, then both bounds are clamped to `[0, len]`. -/
def pySlice (s : List Char) (a b : Int) : List Char :=
  let n : Int := (s.length : Int)
  let na : Int := if a < 0 then a + n else a
  let nb : Int := if b < 0 then b + n else b
  let a' : Nat := (max 0 (min n na)).toNat
  let b' : Nat := (max 0 (min n nb)).toNat
  (s.drop a').take (b' - a')

/-- Numeric value of a digit string (the capture of a `\d+` group). -/
def digitsToNat (l : List Char) : Nat :=
  l.foldl (fun a c => a * 10 + (c.toNat - 48)) 0

/-- Python `int(string)`: optional surrounding whitespace, optional sign,
then a nonempty digit run; anything else raises `ValueError` (here `none`). -/
def pyInt (s : List Char) : Option Int :=
  let core : List Char → Option Int := fun t =>
    if t ≠ [] ∧ t.all Char.isDigit then some ((digitsToNat t : Nat) : Int)
    else none
  match pyStrip s with
  | '-' :: rest => (core rest).map (fun n => -n)
  | '+' :: rest => core rest
  | t => core t

/-- Decimal digits of a natural number, most significant first; the fuel is
always at least the number itself plus one, which bounds the division
chain. -/
def natDecAux : Nat → Nat → List Char
  | 0, _ => []
  | fuel + 1, n =>
    if n < 10 then [Nat.digitChar n]
    else natDecAux fuel (n / 10) ++ [Nat.digitChar (n % 10)]

/-- Decimal rendering of a natural number, as Python `str` prints it. -/
def natDec (n : Nat) : List Char := natDecAux (n + 1) n

/-- Decimal rendering of an integer, as Python `str` prints it. -/
def intDec (i : Int) : List Char :=
  if i < 0 then '-' :: natDec i.natAbs else natDec i.toNat

/-! ### The regular-expression fragment used by the source -/

/-- Items of the regex fragment `netlist2graph.py` uses: literal characters
(case-sensitive and case-insensitive), `\s`, `\s+`, `\s*`, a capturing
`(\d+)`, a capturing lazy `(.*?)` and a capturing greedy `(.*)`.
`digStar` only arises as the continuation of `digPlus`. -/
inductive RItem where
  | lit (c : Char)
  | litCI (c : Char)
  | wsOne
  | wsPlus
  | wsStar
  | digPlus
  | digStar
  | lazyStar
  | greedyStar
deriving DecidableEq

/-- Prepend a fresh (so far empty) capture group to a match result. -/
def consGroup (g : List Char) :
    Option (List (List Char) × List Char) → Option (List (List Char) × List Char) :=
  Option.map (fun r => (g :: r.1, r.2))

/-- Extend the currently open capture group (the head of the group list)
with one more character. -/
def addToHead (a : Char) :
    Option (List (List Char) × List Char) → Option (List (List Char) × List Char) :=
  Option.map (fun r =>
    match r.1 with
    | g :: gs => ((a :: g) :: gs, r.2)
    | [] => ([[a]], r.2))

/-- Backtracking matcher, anchored at the start of `s`.  Returns the capture
groups in pattern order together with the unconsumed rest of the input.  The
first alternative explored is the one Python's `re` engine commits to:
greedy items try the longest extension first, the lazy star tries the
shortest first. -/
def rmatch : Nat → List RItem → List Char → Option (List (List Char) × List Char)
  | 0, _, _ => none
  | _ + 1, [], s => some ([], s)
  | fuel + 1, .lit c :: ps, s =>
    match s with
    | [] => none
    | a :: t => if a = c then rmatch fuel ps t else none
  | fuel + 1, .litCI c :: ps, s =>
    match s with
    | [] => none
    | a :: t => if a.toLower = c.toLower then rmatch fuel ps t else none
  | fuel + 1, .wsOne :: ps, s =>
    match s with
    | [] => none
    | a :: t => if pyIsSpace a then rmatch fuel ps t else none
  | fuel + 1, .wsPlus :: ps, s =>
    match s with
    | [] => none
    | a :: t => if pyIsSpace a then rmatch fuel (.wsStar :: ps) t else none
  | fuel + 1, .wsStar :: ps, s =>
    (match s with
     | [] => none
     | a :: t => if pyIsSpace a then rmatch fuel (.wsStar :: ps) t else none).orElse
      (fun _ => rmatch fuel ps s)
  | fuel + 1, .digPlus :: ps, s =>
    match s with
    | [] => none
    | a :: t => if a.isDigit then addToHead a (rmatch fuel (.digStar :: ps) t) else none
  | fuel + 1, .digStar :: ps, s =>
    (match s with
     | [] => none
     | a :: t => if a.isDigit then addToHead a (rmatch fuel (.digStar :: ps) t) else none).orElse
      (fun _ => consGroup [] (rmatch fuel ps s))
  | fuel + 1, .greedyStar :: ps, s =>
    (match s with
     | [] => none
     | a :: t => if a ≠ '\n' then addToHead a (rmatch fuel (.greedyStar :: ps) t) else none).orElse
      (fun _ => consGroup [] (rmatch fuel ps s))
  | fuel + 1, .lazyStar :: ps, s =>
    (consGroup [] (rmatch fuel ps s)).orElse (fun _ =>
      match s with
      | [] => none
      | a :: t => if a ≠ '\n' then addToHead a (rmatch fuel (.lazyStar :: ps) t) else none)

/-- Fuel that strictly bounds any backtracking chain of `rmatch` on input
`s`: every step shortens the input or, keeping it, shortens the pattern, and
the pattern never grows beyond its initial length (at most 11 here). -/
def rFuel (s : List Char) : Nat := (s.length + 1) * 16

/-- `re.search` without a leading `\b`: scan left to right, committing to the
first position where the anchored matcher succeeds.  Returns the start
index, the groups and the rest after the match. -/
def rsearchAux (boundary : Bool) (pat : List RItem) :
    Nat → Bool → Nat → List Char → Option (Nat × List (List Char) × List Char)
  | 0, _, _, _ => none
  | fuel + 1, prevWord, pos, s =>
    let here :=
      if boundary && prevWord then none
      else rmatch (rFuel s) pat s
    match here with
    | some (gs, rest) => some (pos, gs, rest)
    | none =>
      match s with
      | [] => none
      | c :: t => rsearchAux boundary pat fuel (pyIsWord c) (pos + 1) t

/-- `re.search pat info`: leftmost match.  `boundary` is set when the pattern
begins with `\b`; since every such pattern here continues with a letter, the
boundary holds exactly when the preceding character is not a word
character. -/
def rsearch (boundary : Bool) (pat : List RItem) (s : List Char) :
    Option (Nat × List (List Char) × List Char) :=
  rsearchAux boundary pat (s.length + 1) false 0 s

/-- Case-insensitive literal items for a whole keyword. -/
def litsCI (s : List Char) : List RItem := s.map RItem.litCI

/-- `r"\bnets\s+\d+\s*;"` with `re.IGNORECASE` (netlist2graph.py line 69). -/
def patNetsStart : List RItem :=
  litsCI "nets".data ++ [.wsPlus, .digPlus, .wsStar, .lit ';']

/-- `r"\bend\s+nets\s+"` with `re.IGNORECASE` (line 70). -/
def patNetsEnd : List RItem :=
  litsCI "end".data ++ [.wsPlus] ++ litsCI "nets".data ++ [.wsPlus]

/-- `r"COMPONENTS\s+(\d+)\s*;"` with `re.IGNORECASE` (line 77). -/
def patCompCount : List RItem :=
  litsCI "components".data ++ [.wsPlus, .digPlus, .wsStar, .lit ';']

/-- `r"pins\s+(\d+)"` with `re.IGNORECASE` (line 103). -/
def patPinsCount : List RItem :=
  litsCI "pins".data ++ [.wsPlus, .digPlus]

/-- `r"-\s+(.*)"` — component-name extraction (line 90). -/
def patDashGreedy : List RItem := [.lit '-', .wsPlus, .greedyStar]

/-- `r"-\s+(.*?)\s"` — the `subnet_regex` for net names (line 119). -/
def patDashLazy : List RItem := [.lit '-', .wsPlus, .lazyStar, .wsOne]

/-- `r"\(\s+(.*?)\s+(.*?)\s+\)"` — the `connect_regex` (line 120). -/
def patConn : List RItem :=
  [.lit '(', .wsPlus, .lazyStar, .wsPlus, .lazyStar, .wsPlus, .lit ')']

/-- `connect_regex.findall`: repeatedly take the leftmost match and continue
after it.  The pattern consumes at least its opening parenthesis, so every
round shortens the input; the guard keeps that manifest for the fuel. -/
def findConnsAux : Nat → List Char → List (List Char × List Char)
  | 0, _ => []
  | fuel + 1, s =>
    match rmatch (rFuel s) patConn s with
    | some (g1 :: g2 :: _, rest) =>
      if rest.length < s.length then (g1, g2) :: findConnsAux fuel rest
      else [(g1, g2)]
    | some _ =>
      match s with
      | [] => []
      | _ :: t => findConnsAux fuel t
    | none =>
      match s with
      | [] => []
      | _ :: t => findConnsAux fuel t

/-- All `( A B )` connection pairs of a net record, in textual scan order. -/
def findConns (s : List Char) : List (List Char × List Char) :=
  findConnsAux (s.length + 1) s

/-! ### The DEF parser (netlist2graph.py, `parse_def_file`) -/

/-- The ways `parse_def_file` can die, one constructor per Python exception
site: the explicit `ValueError` for a missing NETS section, the
`AttributeError`s from calling `.group` on a failed `re.search`, the
`IndexError`s from token indexing, the `ValueError`s from `int()`, and the
`KeyError` from an unresolved connection name. -/
inductive ParseErr where
  | netsNotFound
  | compCountMissing
  | compNameMissing
  | pinsCountMissing
  | indexErr
  | intErr
  | keyErr (name : List Char)
deriving DecidableEq

/-- Container mirroring the `GraphData` dataclass (lines 44-56). -/
structure GraphData where
  total_cell_number : Nat
  total_io_number : Nat
  fixed_node_num : Nat
  fixed_id : List Nat
  fixed_pos : List (Int × Int)
  movable_id : List Nat
  io_id : List Nat
  io_pos : List (Int × Int)
  net_cell_index : List (List Nat)
deriving DecidableEq

/-- The `cell_name_to_index` dictionary: insertion prepends, lookup takes the
most recent binding, exactly as a Python dict assignment overwrites. -/
def lookupName (m : List (List Char × Nat)) (k : List Char) : Option Nat :=
  match m with
  | [] => none
  | (k', v) :: rest => if k' = k then some v else lookupName rest k

/-- Mutable state of the COMPONENTS loop (lines 83-100). -/
structure CompState where
  movable_id : List Nat
  fixed_id : List Nat
  fixed_pos : List (Int × Int)
  nmap : List (List Char × Nat)
deriving DecidableEq

/-- The token `"FIXED"`. -/
def FIXEDtok : List Char := "FIXED".data

/-- The token `"PIN"`. -/
def PINtok : List Char := "PIN".data

/-- The excluded net name, `"clk_i"`. -/
def CLKtok : List Char := "clk_i".data

/-- Component name: `re.split(r"\s+", re.search(r"-\s+(.*)", entry).group(1))[0]`
(line 90).  The first element of that split is the maximal leading run of
non-whitespace characters of the captured group. -/
def compNameOf (entry : List Char) : Option (List Char) :=
  match rsearch false patDashGreedy entry with
  | some (_, g :: _, _) => some (g.takeWhile (fun c => !pyIsSpace c))
  | _ => none

/-- One iteration of the COMPONENTS loop (lines 89-100): record the name,
then either the fixed position (the tokens at `tokens.index("FIXED") + 2`
and `+ 3`) or a movable id. -/
def processComp (st : CompState) (idx : Nat) (entry : List Char) :
    Except ParseErr CompState :=
  match compNameOf entry with
  | none => .error .compNameMissing
  | some name =>
    let m' := (name, idx) :: st.nmap
    let tokens := pySplit entry
    match tokens.findIdx? (fun t => t == FIXEDtok) with
    | none =>
      .ok ⟨st.movable_id ++ [idx], st.fixed_id, st.fixed_pos, m'⟩
    | some k =>
      match tokens.get? (k + 2), tokens.get? (k + 3) with
      | some tx, some ty =>
        match pyInt tx, pyInt ty with
        | some x, some y =>
          .ok ⟨st.movable_id, st.fixed_id ++ [idx], st.fixed_pos ++ [(x, y)], m'⟩
        | _, _ => .error .intErr
      | _, _ => .error .indexErr

/-- The COMPONENTS loop over the entry list, `idx` being `orig_idx`. -/
def parseCompsAux : List (List Char) → Nat → CompState → Except ParseErr CompState
  | [], _, st => .ok st
  | e :: rest, idx, st =>
    (processComp st idx e).bind (parseCompsAux rest (idx + 1))

/-- Mutable state of the PINS loop (lines 107-116). -/
structure PinState where
  io_id : List Nat
  io_pos : List (Int × Int)
  nmap : List (List Char × Nat)
deriving DecidableEq

/-- One iteration of the PINS loop: name is the second whitespace token,
index is `offset + total_cell_number`, position is tokens 3 and 4 of the
entry's last line. -/
def processPin (total_cell : Nat) (st : PinState) (offset : Nat)
    (entry : List Char) : Except ParseErr PinState :=
  match (pySplit entry).get? 1 with
  | none => .error .indexErr
  | some pname =>
    let idx := offset + total_cell
    let pos_line := (entry.splitOn '\n').getLastD []
    let pt := pySplit pos_line
    match pt.get? 3, pt.get? 4 with
    | some a, some b =>
      match pyInt a, pyInt b with
      | some x, some y =>
        .ok ⟨st.io_id ++ [idx], st.io_pos ++ [(x, y)], (pname, idx) :: st.nmap⟩
      | _, _ => .error .intErr
    | _, _ => .error .indexErr

/-- The PINS loop over the entry list, `off` being `offset`. -/
def parsePinsAux (total_cell : Nat) :
    List (List Char) → Nat → PinState → Except ParseErr PinState
  | [], _, st => .ok st
  | e :: rest, off, st =>
    (processPin total_cell st off e).bind (parsePinsAux total_cell rest (off + 1))

/-- Net name: `subnet_regex.search(net_entry)` and its group 1 (line 124). -/
def netNameOf (entry : List Char) : Option (List Char) :=
  match rsearch false patDashLazy entry with
  | some (_, g :: _, _) => some g
  | _ => none

/-- Resolve the connection pairs of one net (lines 128-130): the referenced
vertex is `B` when `A` is the literal `PIN`, else `A`; a name absent from
the index raises `KeyError`. -/
def resolveCells (m : List (List Char × Nat)) :
    List (List Char × List Char) → Except ParseErr (List Nat)
  | [] => .ok []
  | (a, b) :: rest =>
    let target := if a = PINtok then b else a
    match lookupName m target with
    | none => .error (.keyErr target)
    | some v => (resolveCells m rest).map (fun cells => v :: cells)

/-- The NETS loop (lines 123-131): records with no extractable name and the
`clk_i` record are skipped; every other record contributes its resolved
index list, empty or not. -/
def parseNetsAux (m : List (List Char × Nat)) :
    List (List Char) → Except ParseErr (List (List Nat))
  | [] => .ok []
  | e :: rest =>
    match netNameOf e with
    | none => parseNetsAux m rest
    | some nm =>
      if nm = CLKtok then parseNetsAux m rest
      else
        (resolveCells m (findConns e)).bind (fun cells =>
          (parseNetsAux m rest).map (fun nets => cells :: nets))

/-- `info[info.find("COMPONENTS"):info.find("END COMPONENTS")]` (line 80):
a case-sensitive substring search with Python's `-1`-tolerant slicing. -/
def compSectionOf (info : List Char) : List Char :=
  pySlice info (pyFind "COMPONENTS".data info) (pyFind "END COMPONENTS".data info)

/-- `[e.strip() for e in comp_section.split(";") if e.strip()][1:]`
(line 81). -/
def compEntriesOf (info : List Char) : List (List Char) :=
  ((((compSectionOf info).splitOn ';').map pyStrip).filter
    (fun e => !e.isEmpty)).drop 1

/-- `info[info.find("PINS"):info.find("END PINS")]` (line 104). -/
def pinSectionOf (info : List Char) : List Char :=
  pySlice info (pyFind "PINS".data info) (pyFind "END PINS".data info)

/-- `[e.strip() for e in pins_section.split(";") if e.strip()][1:]`
(line 105). -/
def pinEntriesOf (info : List Char) : List (List Char) :=
  ((((pinSectionOf info).splitOn ';').map pyStrip).filter
    (fun e => !e.isEmpty)).drop 1

/-- `info[nets_start.start():nets_end.start()]` (lines 69-73), `none` when
either boundary regex fails (the explicit `ValueError`). -/
def netInfoOf (info : List Char) : Option (List Char) :=
  match rsearch true patNetsStart info, rsearch true patNetsEnd info with
  | some (s1, _, _), some (s2, _, _) => some ((info.drop s1).take (s2 - s1))
  | _, _ => none

/-- `[e for e in net_info.split(";") if e.strip()]` (line 123): the raw
pieces, kept unstripped. -/
def netEntriesOf (net_info : List Char) : List (List Char) :=
  (net_info.splitOn ';').filter (fun e => !(pyStrip e).isEmpty)

/-- `int(re.search(r"COMPONENTS\s+(\d+)\s*;", info, flags=re.IGNORECASE).group(1))`
(lines 76-78); `none` is the `AttributeError` on a failed search. -/
def compCountOf (info : List Char) : Option Nat :=
  match rsearch false patCompCount info with
  | some (_, g :: _, _) => some (digitsToNat g)
  | _ => none

/-- `int(re.search(r"pins\s+(\d+)", info, flags=re.IGNORECASE).group(1))`
(line 103). -/
def pinCountOf (info : List Char) : Option Nat :=
  match rsearch false patPinsCount info with
  | some (_, g :: _, _) => some (digitsToNat g)
  | _ => none

/-- The whole of `parse_def_file` (lines 63-151) on the file's text. -/
def parse_def_file (info : List Char) :
    Except ParseErr (GraphData × List (List Char × Nat)) :=
  match netInfoOf info with
  | none => .error .netsNotFound
  | some net_info =>
    match compCountOf info with
    | none => .error .compCountMissing
    | some total_cell =>
      (parseCompsAux (compEntriesOf info) 0 ⟨[], [], [], []⟩).bind (fun cst =>
        match pinCountOf info with
        | none => .error .pinsCountMissing
        | some total_io =>
          (parsePinsAux total_cell (pinEntriesOf info) 0 ⟨[], [], cst.nmap⟩).bind
            (fun pst =>
              (parseNetsAux pst.nmap (netEntriesOf net_info)).map (fun nets =>
                (⟨total_cell, total_io, cst.fixed_id.length, cst.fixed_id,
                  cst.fixed_pos, cst.movable_id, pst.io_id, pst.io_pos,
                  nets⟩, pst.nmap))))

/-! ### The hypergraph writer (netlist2graph.py, `write_hypergraph`) -/

/-- `" ".join(...)`. -/
def joinSpace : List (List Char) → List Char
  | [] => []
  | [x] => x
  | x :: rest => x ++ ' ' :: joinSpace rest

/-- The lines `write_hypergraph` writes (lines 158-168): three header
counts, the fixed caption, then one line per entry of `net_cell_index`. -/
def write_hypergraph_lines (g : GraphData) : List (List Char) :=
  ("Number of vertices: ".data ++ natDec (g.total_cell_number + g.total_io_number)) ::
  ("  Number of macros + std_cells: ".data ++ natDec g.total_cell_number) ::
  ("  Number of IOs: ".data ++ natDec g.total_io_number) ::
  ("hyperedges: driver_id load_id1 load_id2 ...".data) ::
  g.net_cell_index.map (fun e => joinSpace (e.map natDec))

/-! ### The placement injector (loc2def.py, `save_locations_to_def`) -/

/-- The marker substring `"UNPLACED"`. -/
def U8 : List Char := "UNPLACED".data

/-- The leading constant of an injected clause, `"PLACED ( "`. -/
def P9 : List Char := "PLACED ( ".data

/-- Does `pat` occur as a contiguous substring of `s`?  (Python `pat in s`.) -/
def hasSub (pat : List Char) : List Char → Bool
  | [] => pat.isEmpty
  | c :: t => pat.isPrefixOf (c :: t) || hasSub pat t

/-- Number of start positions at which `pat` occurs in `s`.  For the
patterns used here, which cannot overlap themselves, this is Python's
`s.count(pat)`. -/
def countOccs (pat : List Char) : List Char → Nat
  | [] => 0
  | c :: t => (if pat.isPrefixOf (c :: t) then 1 else 0) + countOccs pat t

/-- Python `s.replace(pat, repl, 1)` for nonempty `pat`: rewrite the
leftmost occurrence, leave everything else untouched. -/
def replaceFirst (pat repl : List Char) : List Char → List Char
  | [] => []
  | c :: t =>
    if pat.isPrefixOf (c :: t) then repl ++ (c :: t).drop pat.length
    else c :: replaceFirst pat repl t

/-- The f-string `f"PLACED ( {int(x)} {int(y)} ) N"` (line 49). -/
def placedClause (x y : Int) : List Char :=
  P9 ++ intDec x ++ ' ' :: (intDec y ++ " ) N".data)

/-- `StopIteration` turned into the `ValueError` of lines 43-46. -/
inductive InjErr where
  | inputExhaustion
deriving DecidableEq

/-- `save_locations_to_def` (loc2def.py lines 38-60) on the file's lines:
every line containing `UNPLACED` consumes the next position and has its
first occurrence replaced by the placed clause; running out of positions is
fatal; the Boolean records whether the surplus-positions warning fires. -/
def save_locations_to_def :
    List (List Char) → List (Int × Int) → Except InjErr (List (List Char) × Bool)
  | [], ps => .ok ([], !ps.isEmpty)
  | line :: rest, ps =>
    if hasSub U8 line then
      match ps with
      | [] => .error .inputExhaustion
      | (x, y) :: ps' =>
        (save_locations_to_def rest ps').map (fun r =>
          (replaceFirst U8 (placedClause x y) line :: r.1, r.2))
    else
      (save_locations_to_def rest ps).map (fun r => (line :: r.1, r.2))

/-- The number of lines containing `UNPLACED` — the number of positions the
injector consumes. -/
def countUnplacedLines (lines : List (List Char)) : Nat :=
  (lines.filter (fun l => hasSub U8 l)).length

/-- Total number of occurrences of `pat` across a list of lines.  Because
the patterns involved contain no newline, this is the number of occurrences
in the joined file text. -/
def sumCount (pat : List Char) (lines : List (List Char)) : Nat :=
  (lines.map (countOccs pat)).sum

deriving instance DecidableEq for Except

/-! ### Specification-side views of the loops, used to state the invariants -/

/-- Does an entry take the `FIXED` branch of the classifier (line 94)? -/
def entryFixed (e : List Char) : Bool :=
  ((pySplit e).findIdx? (fun t => t == FIXEDtok)).isSome

/-- Indices (from `idx`) of the entries without `FIXED`, in order. -/
def movIdx : Nat → List (List Char) → List Nat
  | _, [] => []
  | idx, e :: rest =>
    if entryFixed e then movIdx (idx + 1) rest else idx :: movIdx (idx + 1) rest

/-- Indices (from `idx`) of the entries with `FIXED`, in order. -/
def fixIdx : Nat → List (List Char) → List Nat
  | _, [] => []
  | idx, e :: rest =>
    if entryFixed e then idx :: fixIdx (idx + 1) rest else fixIdx (idx + 1) rest

/-! ### Concrete DEF inputs used to instantiate and refute the claims -/

/-- A well-formed sample DEF: two components (one fixed), one pin, a clock
net and one ordinary net. -/
def sampleDef : List Char :=
  ("COMPONENTS 2 ;\n- U0 ;\n- U1 + FIXED ( 10 20 ) N ;\nEND COMPONENTS\nPINS 1 ;\n- P0\n+ PLACED ( 5 5 ) N ;\nEND PINS\nNETS 2 ;\n- clk_i ( U0 a ) ;\n- n0 ( U0 a ) ( PIN P0 ) ( U1 b ) ;\nEND NETS\n").data

/-- The graph `parse_def_file` produces for `sampleDef`. -/
def sampleGraph : GraphData :=
  ⟨2, 1, 1, [1], [(10, 20)], [0], [2], [(5, 5)], [[0, 2, 1]]⟩

/-- The name index `parse_def_file` produces for `sampleDef`. -/
def sampleMap : List (List Char × Nat) :=
  [("P0".data, 2), ("U1".data, 1), ("U0".data, 0)]

/-- A DEF whose COMPONENTS header declares 1 component but lists 2, with a
net referencing the second one. -/
def dupCompDef : List Char :=
  ("COMPONENTS 1 ;\n- U0 ;\n- U1 ;\nEND COMPONENTS\nPINS 0 ;\nEND PINS\nNETS 1 ;\n- n0 ( U1 a ) ;\nEND NETS\n").data

/-- A DEF whose PINS header declares 2 pins but lists only 1. -/
def extraPinDef : List Char :=
  ("COMPONENTS 1 ;\n- U0 ;\nEND COMPONENTS\nPINS 2 ;\n- P0\n+ PLACED ( 5 5 ) N ;\nEND PINS\nNETS 1 ;\n- n0 ( U0 a ) ;\nEND NETS\n").data

/-- A DEF whose NETS section contains a record with no extractable name
(`xx yy ;` has no `-` marker). -/
def malformedNetDef : List Char :=
  ("COMPONENTS 1 ;\n- U0 ;\nEND COMPONENTS\nPINS 0 ;\nEND PINS\nNETS 2 ;\n- n0 ( U0 a ) ;\nxx yy ;\nEND NETS\n").data

/-- The malformed record inside `malformedNetDef`, exactly as the `;`-split
produces it. -/
def malformedNetEntry : List Char := ("\nxx yy ").data

/-- A DEF with a retained net (`n1`) that has zero connection pairs. -/
def emptyNetDef : List Char :=
  ("COMPONENTS 1 ;\n- U0 ;\nEND COMPONENTS\nPINS 0 ;\nEND PINS\nNETS 2 ;\n- n0 ( U0 a ) ;\n- n1 ;\nEND NETS\n").data

/-- Base input for the case-sensitivity experiment, all keywords upper
case. -/
def caseBaseDef : List Char :=
  ("COMPONENTS 1 ;\n- U0 ;\nEND COMPONENTS\nPINS 0 ;\nEND PINS\nNETS 1 ;\n- n0 ( U0 a ) ;\nEND NETS\n").data

/-- `caseBaseDef` with only the `NETS` boundary keywords lower-cased. -/
def caseNetsLowerDef : List Char :=
  ("COMPONENTS 1 ;\n- U0 ;\nEND COMPONENTS\nPINS 0 ;\nEND PINS\nnets 1 ;\n- n0 ( U0 a ) ;\nend nets\n").data

/-- `caseBaseDef` with only the `COMPONENTS` boundary keywords lower-cased. -/
def caseCompLowerDef : List Char :=
  ("components 1 ;\n- U0 ;\nend components\nPINS 0 ;\nEND PINS\nNETS 1 ;\n- n0 ( U0 a ) ;\nEND NETS\n").data

/-- A component entry with a `FIXED` clause, used to compare the code's
token offsets with the claim's. -/
def fixedEntrySample : List Char := ("- U2 + FIXED ( 100 200 ) N").data

/-- The ordinary net record of `sampleDef`, exactly as the `;`-split
produces it. -/
def netEntrySample : List Char := ("\n- n0 ( U0 a ) ( PIN P0 ) ( U1 b ) ").data

/-- The substring `"UNUNPLACED"`: an occurrence of `UNPLACED` immediately
preceded by `UN`, the one context in which the replacement re-creates the
marker. -/
def UU10 : List Char := "UNUNPLACED".data

/-- Injector sample: one line with a marker, one without. -/
def injLinesSample : List (List Char) := ["a UNPLACED ;".data, "plain".data]

/-- Surplus position sequence for `injLinesSample`. -/
def injPosSample : List (Int × Int) := [(10, 20), (3, 4)]

/-- The output the injector produces for `injLinesSample`. -/
def injOutSample : List (List Char) :=
  ["a PLACED ( 10 20 ) N ;".data, "plain".data]

/-- Injector input breaking the round-trip claim: the first line holds two
`UNPLACED` occurrences (only the first is replaced), the second holds one
occurrence whose replacement re-creates the marker out of the preceding
`UN`. -/
def injBadLines : List (List Char) :=
  ["UNPLACED UNPLACED".data, "UNUNPLACED".data]

/-- What the injector produces for `injBadLines`: both lines still contain
`UNPLACED`. -/
def injBadOut : List (List Char) :=
  ["PLACED ( 0 0 ) N UNPLACED".data, "UNPLACED ( 7 8 ) N".data]


/-! ### Lemmas about the loops -/

theorem processComp_ok {st : CompState} {idx : Nat} {e : List Char} {st' : CompState}
    (h : processComp st idx e = .ok st') :
    ∃ name, compNameOf e = some name ∧ st'.nmap = (name, idx) :: st.nmap ∧
      ((entryFixed e = false ∧ st'.movable_id = st.movable_id ++ [idx] ∧
        st'.fixed_id = st.fixed_id ∧ st'.fixed_pos = st.fixed_pos) ∨
       (entryFixed e = true ∧ st'.movable_id = st.movable_id ∧
        st'.fixed_id = st.fixed_id ++ [idx] ∧
        ∃ xy, st'.fixed_pos = st.fixed_pos ++ [xy])) := by
  unfold processComp at h
  cases hn : compNameOf e with
  | none => simp only [hn] at h; exact Except.noConfusion h
  | some name =>
    simp only [hn] at h
    refine ⟨name, rfl, ?_⟩
    cases hf : (pySplit e).findIdx? (fun t => t == FIXEDtok) with
    | none =>
      simp only [hf] at h
      injection h with h
      subst h
      exact ⟨rfl, Or.inl ⟨by simp [entryFixed, hf], rfl, rfl, rfl⟩⟩
    | some k =>
      simp only [hf] at h
      cases h2 : (pySplit e).get? (k + 2) with
      | none => simp only [h2] at h; exact Except.noConfusion h
      | some tx =>
        cases h3 : (pySplit e).get? (k + 3) with
        | none => simp only [h2, h3] at h; exact Except.noConfusion h
        | some ty =>
          simp only [h2, h3] at h
          cases h4 : pyInt tx with
          | none => simp only [h4] at h; exact Except.noConfusion h
          | some x =>
            cases h5 : pyInt ty with
            | none => simp only [h4, h5] at h; exact Except.noConfusion h
            | some y =>
              simp only [h4, h5] at h
              injection h with h
              subst h
              exact ⟨rfl, Or.inr ⟨by simp [entryFixed, hf], rfl, rfl, (x, y), rfl⟩⟩

theorem parseCompsAux_shape :
    ∀ (entries : List (List Char)) (idx : Nat) (st st' : CompState),
    parseCompsAux entries idx st = .ok st' →
    st'.movable_id = st.movable_id ++ movIdx idx entries ∧
    st'.fixed_id = st.fixed_id ++ fixIdx idx entries ∧
    st'.fixed_pos.length = st.fixed_pos.length + (fixIdx idx entries).length := by
  intro entries
  induction entries with
  | nil =>
    intro idx st st' h
    injection h with h
    subst h
    simp [movIdx, fixIdx]
  | cons e rest ih =>
    intro idx st st' h
    unfold parseCompsAux at h
    cases hp : processComp st idx e with
    | error err => rw [hp] at h; exact Except.noConfusion h
    | ok st1 =>
      rw [hp] at h
      simp only [Except.bind] at h
      obtain ⟨nm, hn, hm, hcases⟩ := processComp_ok hp
      obtain ⟨h1, h2, h3⟩ := ih (idx + 1) st1 st' h
      rcases hcases with ⟨hf, ha, hb, hc⟩ | ⟨hf, ha, hb, xy, hc⟩
      · rw [h1, h2, h3, ha, hb, hc]
        simp [movIdx, fixIdx, hf, List.append_assoc]
      · rw [h1, h2, h3, ha, hb, hc]
        simp [movIdx, fixIdx, hf, List.append_assoc]
        omega

theorem parseCompsAux_nmap :
    ∀ (entries : List (List Char)) (idx : Nat) (st st' : CompState),
    parseCompsAux entries idx st = .ok st' →
    ∀ p ∈ st'.nmap, p ∈ st.nmap ∨ (idx ≤ p.2 ∧ p.2 < idx + entries.length) := by
  intro entries
  induction entries with
  | nil =>
    intro idx st st' h p hp
    injection h with h
    subst h
    exact Or.inl hp
  | cons e rest ih =>
    intro idx st st' h p hp
    unfold parseCompsAux at h
    cases hq : processComp st idx e with
    | error err => rw [hq] at h; exact Except.noConfusion h
    | ok st1 =>
      rw [hq] at h
      simp only [Except.bind] at h
      obtain ⟨nm, hn, hm, _⟩ := processComp_ok hq
      rcases ih (idx + 1) st1 st' h p hp with h1 | h1
      · rw [hm] at h1
        rcases List.mem_cons.mp h1 with h1 | h1
        · subst h1; right; simp
        · exact Or.inl h1
      · right; simp at h1 ⊢; omega

theorem processPin_ok {tc : Nat} {st : PinState} {off : Nat} {e : List Char}
    {st' : PinState} (h : processPin tc st off e = .ok st') :
    ∃ pname xy, st'.io_id = st.io_id ++ [off + tc] ∧
      st'.io_pos = st.io_pos ++ [xy] ∧ st'.nmap = (pname, off + tc) :: st.nmap := by
  unfold processPin at h
  cases h1 : (pySplit e).get? 1 with
  | none => simp only [h1] at h; exact Except.noConfusion h
  | some pname =>
    simp only [h1] at h
    cases h2 : (pySplit ((e.splitOn '\n').getLastD [])).get? 3 with
    | none => simp only [h2] at h; exact Except.noConfusion h
    | some a =>
      cases h3 : (pySplit ((e.splitOn '\n').getLastD [])).get? 4 with
      | none => simp only [h2, h3] at h; exact Except.noConfusion h
      | some b =>
        simp only [h2, h3] at h
        cases h4 : pyInt a with
        | none => simp only [h4] at h; exact Except.noConfusion h
        | some x =>
          cases h5 : pyInt b with
          | none => simp only [h4, h5] at h; exact Except.noConfusion h
          | some y =>
            simp only [h4, h5] at h
            injection h with h
            subst h
            exact ⟨pname, (x, y), rfl, rfl, rfl⟩

theorem parsePinsAux_shape :
    ∀ (entries : List (List Char)) (tc off : Nat) (st st' : PinState),
    parsePinsAux tc entries off st = .ok st' →
    st'.io_id = st.io_id ++ List.range' (off + tc) entries.length ∧
    st'.io_pos.length = st.io_pos.length + entries.length := by
  intro entries
  induction entries with
  | nil =>
    intro tc off st st' h
    injection h with h
    subst h
    simp
  | cons e rest ih =>
    intro tc off st st' h
    unfold parsePinsAux at h
    cases hp : processPin tc st off e with
    | error err => rw [hp] at h; exact Except.noConfusion h
    | ok st1 =>
      rw [hp] at h
      simp only [Except.bind] at h
      obtain ⟨pname, xy, h1, h2, h3⟩ := processPin_ok hp
      obtain ⟨g1, g2⟩ := ih tc (off + 1) st1 st' h
      constructor
      · rw [g1, h1]
        have : List.range' (off + tc) (rest.length + 1) =
            (off + tc) :: List.range' (off + tc + 1) rest.length := List.range'_succ _ _ _
        simp only [List.length_cons, this, List.append_assoc, List.singleton_append]
        have : off + 1 + tc = off + tc + 1 := by omega
        rw [this]
      · rw [g2, h2]
        simp
        omega

theorem parsePinsAux_nmap :
    ∀ (entries : List (List Char)) (tc off : Nat) (st st' : PinState),
    parsePinsAux tc entries off st = .ok st' →
    ∀ p ∈ st'.nmap, p ∈ st.nmap ∨ (off + tc ≤ p.2 ∧ p.2 < off + tc + entries.length) := by
  intro entries
  induction entries with
  | nil =>
    intro tc off st st' h p hp
    injection h with h
    subst h
    exact Or.inl hp
  | cons e rest ih =>
    intro tc off st st' h p hp
    unfold parsePinsAux at h
    cases hq : processPin tc st off e with
    | error err => rw [hq] at h; exact Except.noConfusion h
    | ok st1 =>
      rw [hq] at h
      simp only [Except.bind] at h
      obtain ⟨pname, xy, h1, h2, h3⟩ := processPin_ok hq
      rcases ih tc (off + 1) st1 st' h p hp with g | g
      · rw [h3] at g
        rcases List.mem_cons.mp g with g | g
        · subst g; right; simp
        · exact Or.inl g
      · right; simp at g ⊢; omega

theorem lookupName_mem :
    ∀ (m : List (List Char × Nat)) (k : List Char) (v : Nat),
    lookupName m k = some v → (k, v) ∈ m := by
  intro m
  induction m with
  | nil => intro k v h; exact Option.noConfusion h
  | cons p rest ih =>
    intro k v h
    unfold lookupName at h
    by_cases he : p.1 = k
    · obtain ⟨k', v'⟩ := p
      simp only at he
      subst he
      simp only [if_pos rfl] at h
      injection h with h
      subst h
      exact List.mem_cons_self _ _
    · obtain ⟨k', v'⟩ := p
      simp only at he
      rw [if_neg he] at h
      exact List.mem_cons_of_mem _ (ih k v h)

theorem mem_movIdx :
    ∀ (l : List (List Char)) (idx j : Nat),
    j ∈ movIdx idx l ↔ ∃ k, ∃ _ : k < l.length, j = idx + k ∧
      entryFixed (l.get ⟨k, by assumption⟩) = false := by
  intro l
  induction l with
  | nil => intro idx j; simp [movIdx]
  | cons e rest ih =>
    intro idx j
    unfold movIdx
    by_cases hf : entryFixed e
    · rw [if_pos hf, ih (idx + 1) j]
      constructor
      · rintro ⟨k, hk, h1, h2⟩
        exact ⟨k + 1, by simpa using Nat.succ_lt_succ hk, by omega, by simpa using h2⟩
      · rintro ⟨k, hk, h1, h2⟩
        cases k with
        | zero => simp at h2; rw [h2] at hf; exact absurd hf (by simp)
        | succ k' =>
          exact ⟨k', by simpa using Nat.lt_of_succ_lt_succ hk, by omega, by simpa using h2⟩
    · rw [if_neg hf]
      constructor
      · intro hm
        rcases List.mem_cons.mp hm with h1 | h1
        · exact ⟨0, by simp, by omega, by simpa using eq_false_of_ne_true hf⟩
        · obtain ⟨k, hk, h1, h2⟩ := (ih (idx + 1) j).mp h1
          exact ⟨k + 1, by simpa using Nat.succ_lt_succ hk, by omega, by simpa using h2⟩
      · rintro ⟨k, hk, h1, h2⟩
        cases k with
        | zero =>
          have hj : j = idx := by omega
          subst hj
          exact List.mem_cons_self _ _
        | succ k' =>
          exact List.mem_cons_of_mem _
            ((ih (idx + 1) j).mpr ⟨k', by simpa using Nat.lt_of_succ_lt_succ hk, by omega, by simpa using h2⟩)

theorem mem_fixIdx :
    ∀ (l : List (List Char)) (idx j : Nat),
    j ∈ fixIdx idx l ↔ ∃ k, ∃ _ : k < l.length, j = idx + k ∧
      entryFixed (l.get ⟨k, by assumption⟩) = true := by
  intro l
  induction l with
  | nil => intro idx j; simp [fixIdx]
  | cons e rest ih =>
    intro idx j
    unfold fixIdx
    by_cases hf : entryFixed e
    · rw [if_pos hf]
      constructor
      · intro hm
        rcases List.mem_cons.mp hm with h1 | h1
        · exact ⟨0, by simp, by omega, by simpa using hf⟩
        · obtain ⟨k, hk, h1, h2⟩ := (ih (idx + 1) j).mp h1
          exact ⟨k + 1, by simpa using Nat.succ_lt_succ hk, by omega, by simpa using h2⟩
      · rintro ⟨k, hk, h1, h2⟩
        cases k with
        | zero =>
          have hj : j = idx := by omega
          subst hj
          exact List.mem_cons_self _ _
        | succ k' =>
          exact List.mem_cons_of_mem _
            ((ih (idx + 1) j).mpr ⟨k', by simpa using Nat.lt_of_succ_lt_succ hk, by omega, by simpa using h2⟩)
    · rw [if_neg hf, ih (idx + 1) j]
      constructor
      · rintro ⟨k, hk, h1, h2⟩
        exact ⟨k + 1, by simpa using Nat.succ_lt_succ hk, by omega, by simpa using h2⟩
      · rintro ⟨k, hk, h1, h2⟩
        cases k with
        | zero => simp at h2; rw [h2] at hf; exact absurd rfl hf
        | succ k' =>
          exact ⟨k', by simpa using Nat.lt_of_succ_lt_succ hk, by omega, by simpa using h2⟩

theorem movIdx_lower : ∀ (l : List (List Char)) (idx j : Nat), j ∈ movIdx idx l → idx ≤ j := by
  intro l idx j hm
  obtain ⟨k, hk, h1, _⟩ := (mem_movIdx l idx j).mp hm
  omega

theorem fixIdx_lower : ∀ (l : List (List Char)) (idx j : Nat), j ∈ fixIdx idx l → idx ≤ j := by
  intro l idx j hm
  obtain ⟨k, hk, h1, _⟩ := (mem_fixIdx l idx j).mp hm
  omega

theorem movIdx_sorted : ∀ (l : List (List Char)) (idx : Nat),
    List.Sorted (· < ·) (movIdx idx l) := by
  intro l
  induction l with
  | nil => intro idx; simp [movIdx]
  | cons e rest ih =>
    intro idx
    unfold movIdx
    by_cases hf : entryFixed e
    · rw [if_pos hf]; exact ih (idx + 1)
    · rw [if_neg hf]
      exact List.sorted_cons.mpr
        ⟨fun b hb => Nat.lt_of_lt_of_le (Nat.lt_succ_self idx) (movIdx_lower rest (idx + 1) b hb),
         ih (idx + 1)⟩

theorem fixIdx_sorted : ∀ (l : List (List Char)) (idx : Nat),
    List.Sorted (· < ·) (fixIdx idx l) := by
  intro l
  induction l with
  | nil => intro idx; simp [fixIdx]
  | cons e rest ih =>
    intro idx
    unfold fixIdx
    by_cases hf : entryFixed e
    · rw [if_pos hf]
      exact List.sorted_cons.mpr
        ⟨fun b hb => Nat.lt_of_lt_of_le (Nat.lt_succ_self idx) (fixIdx_lower rest (idx + 1) b hb),
         ih (idx + 1)⟩
    · rw [if_neg hf]; exact ih (idx + 1)

theorem movIdx_fixIdx_length : ∀ (l : List (List Char)) (idx : Nat),
    (movIdx idx l).length + (fixIdx idx l).length = l.length := by
  intro l
  induction l with
  | nil => intro idx; simp [movIdx, fixIdx]
  | cons e rest ih =>
    intro idx
    unfold movIdx fixIdx
    by_cases hf : entryFixed e
    · rw [if_pos hf, if_pos hf]
      simp only [List.length_cons]
      have := ih (idx + 1)
      omega
    · rw [if_neg hf, if_neg hf]
      simp only [List.length_cons]
      have := ih (idx + 1)
      omega

theorem resolveCells_ok_spec :
    ∀ (m : List (List Char × Nat)) (pairs : List (List Char × List Char))
      (cells : List Nat), resolveCells m pairs = .ok cells →
    cells.length = pairs.length ∧
    ∀ (i : Nat) (a b : List Char), pairs[i]? = some (a, b) →
      lookupName m (if a = PINtok then b else a) = cells[i]? := by
  intro m pairs
  induction pairs with
  | nil =>
    intro cells h
    injection h with h
    subst h
    exact ⟨rfl, fun i a b hi => by simp at hi⟩
  | cons p rest ih =>
    intro cells h
    obtain ⟨a0, b0⟩ := p
    unfold resolveCells at h
    cases hl : lookupName m (if a0 = PINtok then b0 else a0) with
    | none => simp only [hl] at h; exact Except.noConfusion h
    | some v =>
      simp only [hl] at h
      cases hr : resolveCells m rest with
      | error err => rw [hr] at h; simp only [Except.map] at h; exact Except.noConfusion h
      | ok cs =>
        rw [hr] at h
        simp only [Except.map] at h
        injection h with h
        subst h
        obtain ⟨hlen, hspec⟩ := ih cs hr
        refine ⟨by simp [hlen], ?_⟩
        intro i a b hi
        cases i with
        | zero =>
          simp only [List.getElem?_cons_zero] at hi
          injection hi with hi
          injection hi with ha hb
          subst ha
          subst hb
          simpa using hl
        | succ j =>
          simp only [List.getElem?_cons_succ] at hi ⊢
          exact hspec j a b hi

theorem resolveCells_ok_mem :
    ∀ (m : List (List Char × Nat)) (pairs : List (List Char × List Char))
      (cells : List Nat), resolveCells m pairs = .ok cells →
    ∀ v ∈ cells, ∃ k, (k, v) ∈ m := by
  intro m pairs
  induction pairs with
  | nil =>
    intro cells h v hv
    injection h with h
    subst h
    simp at hv
  | cons p rest ih =>
    intro cells h v hv
    obtain ⟨a0, b0⟩ := p
    unfold resolveCells at h
    cases hl : lookupName m (if a0 = PINtok then b0 else a0) with
    | none => simp only [hl] at h; exact Except.noConfusion h
    | some w =>
      simp only [hl] at h
      cases hr : resolveCells m rest with
      | error err => rw [hr] at h; simp only [Except.map] at h; exact Except.noConfusion h
      | ok cs =>
        rw [hr] at h
        simp only [Except.map] at h
        injection h with h
        subst h
        rcases List.mem_cons.mp hv with h1 | h1
        · subst h1
          exact ⟨_, lookupName_mem m _ v hl⟩
        · exact ih cs hr v h1

theorem resolveCells_unresolved :
    ∀ (m : List (List Char × Nat)) (pairs : List (List Char × List Char))
      (i : Nat) (a b : List Char), pairs[i]? = some (a, b) →
    lookupName m (if a = PINtok then b else a) = none →
    ∃ t, resolveCells m pairs = .error (.keyErr t) := by
  intro m pairs
  induction pairs with
  | nil => intro i a b hi _; simp at hi
  | cons p rest ih =>
    intro i a b hi hnone
    obtain ⟨a0, b0⟩ := p
    cases hl : lookupName m (if a0 = PINtok then b0 else a0) with
    | none =>
      refine ⟨if a0 = PINtok then b0 else a0, ?_⟩
      unfold resolveCells
      simp only [hl]
    | some v =>
      cases i with
      | zero =>
        simp only [List.getElem?_cons_zero] at hi
        injection hi with hi
        injection hi with ha hb
        subst ha
        subst hb
        rw [hl] at hnone
        exact Option.noConfusion hnone
      | succ j =>
        simp only [List.getElem?_cons_succ] at hi
        obtain ⟨t, ht⟩ := ih j a b hi hnone
        refine ⟨t, ?_⟩
        unfold resolveCells
        simp only [hl, ht, Except.map]

theorem parseNetsAux_mem :
    ∀ (m : List (List Char × Nat)) (entries : List (List Char))
      (nets : List (List Nat)), parseNetsAux m entries = .ok nets →
    ∀ net ∈ nets, ∀ v ∈ net, ∃ k, (k, v) ∈ m := by
  intro m entries
  induction entries with
  | nil =>
    intro nets h net hnet v hv
    injection h with h
    subst h
    simp at hnet
  | cons e rest ih =>
    intro nets h net hnet v hv
    unfold parseNetsAux at h
    cases hn : netNameOf e with
    | none => simp only [hn] at h; exact ih nets h net hnet v hv
    | some nm =>
      simp only [hn] at h
      by_cases hc : nm = CLKtok
      · rw [if_pos hc] at h
        exact ih nets h net hnet v hv
      · rw [if_neg hc] at h
        cases hr : resolveCells m (findConns e) with
        | error err => rw [hr] at h; simp only [Except.bind] at h; exact Except.noConfusion h
        | ok cells =>
          rw [hr] at h
          simp only [Except.bind] at h
          cases hq : parseNetsAux m rest with
          | error err => rw [hq] at h; simp only [Except.map] at h; exact Except.noConfusion h
          | ok nets' =>
            rw [hq] at h
            simp only [Except.map] at h
            injection h with h
            subst h
            rcases List.mem_cons.mp hnet with h1 | h1
            · exact resolveCells_ok_mem m (findConns e) _ hr v (h1 ▸ hv)
            · exact ih nets' hq net h1 v hv

/-- Decomposition of a successful `parse_def_file` run into its phases. -/
theorem parse_ok_shape {info : List Char} {g : GraphData}
    {m : List (List Char × Nat)} (h : parse_def_file info = .ok (g, m)) :
    ∃ net_info cst pst,
      netInfoOf info = some net_info ∧
      compCountOf info = some g.total_cell_number ∧
      pinCountOf info = some g.total_io_number ∧
      parseCompsAux (compEntriesOf info) 0 ⟨[], [], [], []⟩ = .ok cst ∧
      parsePinsAux g.total_cell_number (pinEntriesOf info) 0 ⟨[], [], cst.nmap⟩ = .ok pst ∧
      parseNetsAux pst.nmap (netEntriesOf net_info) = .ok g.net_cell_index ∧
      g.fixed_id = cst.fixed_id ∧ g.fixed_pos = cst.fixed_pos ∧
      g.movable_id = cst.movable_id ∧ g.fixed_node_num = cst.fixed_id.length ∧
      g.io_id = pst.io_id ∧ g.io_pos = pst.io_pos ∧ m = pst.nmap := by
  unfold parse_def_file at h
  cases h1 : netInfoOf info with
  | none => rw [h1] at h; exact Except.noConfusion h
  | some net_info =>
    rw [h1] at h
    cases h2 : compCountOf info with
    | none => rw [h2] at h; exact Except.noConfusion h
    | some total_cell =>
      rw [h2] at h
      cases h3 : parseCompsAux (compEntriesOf info) 0 ⟨[], [], [], []⟩ with
      | error err => rw [h3] at h; simp only [Except.bind] at h; exact Except.noConfusion h
      | ok cst =>
        rw [h3] at h
        simp only [Except.bind] at h
        cases h4 : pinCountOf info with
        | none => rw [h4] at h; exact Except.noConfusion h
        | some total_io =>
          rw [h4] at h
          cases h5 : parsePinsAux total_cell (pinEntriesOf info) 0 ⟨[], [], cst.nmap⟩ with
          | error err => rw [h5] at h; simp only [Except.bind] at h; exact Except.noConfusion h
          | ok pst =>
            rw [h5] at h
            simp only [Except.bind] at h
            cases h6 : parseNetsAux pst.nmap (netEntriesOf net_info) with
            | error err => rw [h6] at h; simp only [Except.map] at h; exact Except.noConfusion h
            | ok nets =>
              rw [h6] at h
              simp only [Except.map] at h
              injection h with h
              injection h with hg hm
              subst hg
              subst hm
              exact ⟨net_info, cst, pst, rfl, rfl, rfl, rfl, h5, h6, rfl,
                rfl, rfl, rfl, rfl, rfl, rfl⟩

/-! ### Claims -/

set_option maxRecDepth 10000

/-- C1, counterexample.  On the entry `- U2 + FIXED ( 100 200 ) N` the
classifier records position `(100, 200)`, yet the tokens immediately
following `FIXED` (offsets +1 and +2, as the claim reads them) are `(` and
`100`, and `(` has no integer value at all: the recorded position does not
come from offsets +1/+2.  The code uses offsets +2 and +3. -/
theorem c1_counterexample :
    processComp ⟨[], [], [], []⟩ 0 fixedEntrySample =
      .ok ⟨[], [0], [(100, 200)], [("U2".data, 0)]⟩ ∧
    (pySplit fixedEntrySample).findIdx? (fun t => t == FIXEDtok) = some 3 ∧
    (pySplit fixedEntrySample).get? 4 = some "(".data ∧
    (pySplit fixedEntrySample).get? 5 = some "100".data ∧
    pyInt "(".data = none := by
  decide

/-- C1, amended: for every component entry containing the FIXED keyword that
the classifier accepts, the recorded position is the pair of integer values
of the tokens at offsets +2 and +3 after the first FIXED token (the token at
offset +1 is the opening parenthesis of the DEF `FIXED ( x y )` clause). -/
theorem c1_fixed_position_offsets {st : CompState} {idx : Nat} {e : List Char}
    {st' : CompState} {k : Nat}
    (h : processComp st idx e = .ok st')
    (hk : (pySplit e).findIdx? (fun t => t == FIXEDtok) = some k) :
    ∃ tx ty x y,
      (pySplit e).get? (k + 2) = some tx ∧ (pySplit e).get? (k + 3) = some ty ∧
      pyInt tx = some x ∧ pyInt ty = some y ∧
      st'.fixed_id = st.fixed_id ++ [idx] ∧
      st'.fixed_pos = st.fixed_pos ++ [(x, y)] := by
  unfold processComp at h
  cases hn : compNameOf e with
  | none => simp only [hn] at h; exact Except.noConfusion h
  | some name =>
    simp only [hn, hk] at h
    cases h2 : (pySplit e).get? (k + 2) with
    | none => simp only [h2] at h; exact Except.noConfusion h
    | some tx =>
      cases h3 : (pySplit e).get? (k + 3) with
      | none => simp only [h2, h3] at h; exact Except.noConfusion h
      | some ty =>
        simp only [h2, h3] at h
        cases h4 : pyInt tx with
        | none => simp only [h4] at h; exact Except.noConfusion h
        | some x =>
          cases h5 : pyInt ty with
          | none => simp only [h4, h5] at h; exact Except.noConfusion h
          | some y =>
            simp only [h4, h5] at h
            injection h with h
            subst h
            exact ⟨tx, ty, x, y, rfl, rfl, h4, h5, rfl, rfl⟩

/-- C1, witness: the amended statement evaluated on the sample fixed
entry. -/
theorem c1_witness :
    ∃ tx ty x y,
      (pySplit fixedEntrySample).get? (3 + 2) = some tx ∧
      (pySplit fixedEntrySample).get? (3 + 3) = some ty ∧
      pyInt tx = some x ∧ pyInt ty = some y ∧
      (⟨[], [0], [(100, 200)], [("U2".data, 0)]⟩ : CompState).fixed_id =
        (⟨[], [], [], []⟩ : CompState).fixed_id ++ [0] ∧
      (⟨[], [0], [(100, 200)], [("U2".data, 0)]⟩ : CompState).fixed_pos =
        (⟨[], [], [], []⟩ : CompState).fixed_pos ++ [(x, y)] :=
  @c1_fixed_position_offsets ⟨[], [], [], []⟩ 0 fixedEntrySample
    ⟨[], [0], [(100, 200)], [("U2".data, 0)]⟩ 3 (by decide) (by decide)

/-- C2, counterexample.  `malformedNetDef` contains the net record
`xx yy` from which no net name can be extracted, yet `parse_def_file`
succeeds: the record is silently skipped, no error is raised. -/
theorem c2_counterexample :
    netNameOf malformedNetEntry = none ∧
    malformedNetEntry ∈ netEntriesOf ((netInfoOf malformedNetDef).getD []) ∧
    parse_def_file malformedNetDef =
      .ok (⟨1, 0, 0, [], [], [0], [], [], [[0]]⟩, [("U0".data, 0)]) := by
  refine ⟨by decide, by decide, by decide⟩

/-- C2, amended: a net record from which no net name can be extracted is
silently skipped — the NETS loop continues with the remaining records and
produces no hyperedge for it (the `continue` on line 126). -/
theorem c2_malformed_net_skipped (m : List (List Char × Nat))
    (e : List Char) (rest : List (List Char)) (h : netNameOf e = none) :
    parseNetsAux m (e :: rest) = parseNetsAux m rest := by
  simp only [parseNetsAux, h]

/-- C2, witness: the amended statement on the concrete malformed record. -/
theorem c2_witness :
    parseNetsAux [] (malformedNetEntry :: []) = parseNetsAux [] [] :=
  c2_malformed_net_skipped [] malformedNetEntry [] (by decide)

/-- C3, counterexample.  `emptyNetDef` parses successfully with the retained
net `n1` resolving to an empty connection list, and the hypergraph output
then contains a blank line (line index 5, right after the headers and the
first net's line): the writer does emit blank hyperedge lines. -/
theorem c3_counterexample :
    parse_def_file emptyNetDef =
      .ok (⟨1, 0, 0, [], [], [0], [], [], [[0], []]⟩, [("U0".data, 0)]) ∧
    (write_hypergraph_lines ⟨1, 0, 0, [], [], [0], [], [], [[0], []]⟩)[5]? =
      some [] := by
  refine ⟨by decide, by decide⟩

/-- C3, amended: a retained net whose resolved connection list is empty is
emitted as a blank line — entry `i` of `net_cell_index` becomes output line
`4 + i`, and an empty entry yields the empty line. -/
theorem c3_empty_net_blank_line (g : GraphData) (i : Nat)
    (h : g.net_cell_index[i]? = some []) :
    (write_hypergraph_lines g)[4 + i]? = some [] := by
  unfold write_hypergraph_lines
  rw [show 4 + i = i + 1 + 1 + 1 + 1 by omega]
  simp only [List.getElem?_cons_succ, List.getElem?_map, h, Option.map_some]
  simp [joinSpace]

/-- C3, witness: the amended statement on the graph parsed from
`emptyNetDef`, whose second net is empty. -/
theorem c3_witness :
    (write_hypergraph_lines
      (⟨1, 0, 0, [], [], [0], [], [], [[0], []]⟩ : GraphData))[4 + 1]? =
      some [] :=
  c3_empty_net_blank_line ⟨1, 0, 0, [], [], [0], [], [], [[0], []]⟩ 1 (by decide)

/-- C4, counterexample.  `dupCompDef` declares `COMPONENTS 1` but lists two
entries; parsing succeeds and the net referencing the second entry holds
index 1, which is outside `[0, total_cell_number + total_io_number) = [0, 1)`:
with mismatched declared counts the invariant fails on a successfully parsed
input. -/
theorem c4_counterexample :
    parse_def_file dupCompDef =
      .ok (⟨1, 0, 0, [], [], [0, 1], [], [], [[1]]⟩,
        [("U1".data, 1), ("U0".data, 0)]) ∧
    ∃ net ∈ (⟨1, 0, 0, [], [], [0, 1], [], [], [[1]]⟩ : GraphData).net_cell_index,
      ∃ v ∈ net,
        (⟨1, 0, 0, [], [], [0, 1], [], [], [[1]]⟩ : GraphData).total_cell_number +
          (⟨1, 0, 0, [], [], [0, 1], [], [], [[1]]⟩ : GraphData).total_io_number ≤ v := by
  refine ⟨by decide, by decide⟩

/-- C4, amended: when the declared header counts cover the actual entry
counts (as they do in every well-formed DEF), every index of every produced
net lies in `[0, total_vertices)`; and independently of that, a connection
name absent from the name index makes resolution fail with the `KeyError`
(`ReferenceResolutionError`), aborting the parse instead of being
dropped. -/
theorem c4_net_indices_in_range {info : List Char} {g : GraphData}
    {m : List (List Char × Nat)}
    (h : parse_def_file info = .ok (g, m))
    (hc : (compEntriesOf info).length ≤ g.total_cell_number)
    (hp : (pinEntriesOf info).length ≤ g.total_io_number) :
    (∀ net ∈ g.net_cell_index, ∀ v ∈ net,
       v < g.total_cell_number + g.total_io_number) ∧
    (∀ (m' : List (List Char × Nat)) (pairs : List (List Char × List Char))
       (i : Nat) (a b : List Char), pairs[i]? = some (a, b) →
       lookupName m' (if a = PINtok then b else a) = none →
       ∃ t, resolveCells m' pairs = .error (.keyErr t)) := by
  obtain ⟨ni, cst, pst, h1, h2, h3, h4, h5, h6, _, _, _, _, _, _, hm⟩ :=
    parse_ok_shape h
  constructor
  · intro net hnet v hv
    obtain ⟨k, hk⟩ := parseNetsAux_mem pst.nmap _ _ h6 net hnet v hv
    rcases parsePinsAux_nmap _ g.total_cell_number 0 _ _ h5 (k, v) hk with hin | hin
    · rcases parseCompsAux_nmap _ 0 _ _ h4 (k, v) hin with hin2 | hin2
      · simp at hin2
      · simp only at hin2
        omega
    · simp only at hin
      omega
  · exact fun m' pairs i a b hi hn => resolveCells_unresolved m' pairs i a b hi hn

/-- C4, witness: the amended statement on the well-formed `sampleDef`, where
both declared counts match the entry counts. -/
theorem c4_witness :
    (∀ net ∈ sampleGraph.net_cell_index, ∀ v ∈ net,
       v < sampleGraph.total_cell_number + sampleGraph.total_io_number) ∧
    (∀ (m' : List (List Char × Nat)) (pairs : List (List Char × List Char))
       (i : Nat) (a b : List Char), pairs[i]? = some (a, b) →
       lookupName m' (if a = PINtok then b else a) = none →
       ∃ t, resolveCells m' pairs = .error (.keyErr t)) :=
  @c4_net_indices_in_range sampleDef sampleGraph sampleMap
    (by decide) (by decide) (by decide)

/-- C7: for every `( A B )` connection pair matched in a retained net record
(one with an extractable, non-excluded name), the resolved vertex name is
`B` when `A` is the literal token `PIN` and `A` otherwise, and the resolved
indices form the net's list in match order — position `i` of the produced
cell list is the resolution of pair `i`. -/
theorem c7_pin_disambiguation {m : List (List Char × Nat)} {e : List Char}
    {rest : List (List Char)} {nets : List (List Nat)} {nm : List Char}
    (hname : netNameOf e = some nm) (hclk : nm ≠ CLKtok)
    (h : parseNetsAux m (e :: rest) = .ok nets) :
    ∃ cells nets', nets = cells :: nets' ∧
      resolveCells m (findConns e) = .ok cells ∧
      cells.length = (findConns e).length ∧
      ∀ (i : Nat) (a b : List Char), (findConns e)[i]? = some (a, b) →
        lookupName m (if a = PINtok then b else a) = cells[i]? := by
  simp only [parseNetsAux, hname, if_neg hclk] at h
  cases hr : resolveCells m (findConns e) with
  | error err => rw [hr] at h; simp only [Except.bind] at h; exact Except.noConfusion h
  | ok cells =>
    rw [hr] at h
    simp only [Except.bind] at h
    cases hq : parseNetsAux m rest with
    | error err => rw [hq] at h; simp only [Except.map] at h; exact Except.noConfusion h
    | ok nets' =>
      rw [hq] at h
      simp only [Except.map] at h
      injection h with h
      subst h
      obtain ⟨hlen, hspec⟩ := resolveCells_ok_spec m (findConns e) cells hr
      exact ⟨cells, nets', rfl, rfl, hlen, hspec⟩

/-- C7, witness: the statement on the sample net
`- n0 ( U0 a ) ( PIN P0 ) ( U1 b )` resolved against the sample name
index: pair 0 resolves `U0`, pair 1 (whose `A` is `PIN`) resolves `P0`,
pair 2 resolves `U1`. -/
theorem c7_witness :
    ∃ cells nets', ([[0, 2, 1]] : List (List Nat)) = cells :: nets' ∧
      resolveCells sampleMap (findConns netEntrySample) = .ok cells ∧
      cells.length = (findConns netEntrySample).length ∧
      ∀ (i : Nat) (a b : List Char), (findConns netEntrySample)[i]? = some (a, b) →
        lookupName sampleMap (if a = PINtok then b else a) = cells[i]? :=
  @c7_pin_disambiguation sampleMap netEntrySample [] [[0, 2, 1]] "n0".data
    (by decide) (by decide) (by decide)

/-- C8, counterexample.  `extraPinDef` declares `PINS 2` but lists a single
pin entry; parsing succeeds with `io_id = [1]`, which is not the claimed
contiguous range `[total_cell_number, total_cell_number + total_io_number) =
range' 1 2 = [1, 2]`. -/
theorem c8_counterexample :
    parse_def_file extraPinDef =
      .ok (⟨1, 2, 0, [], [], [0], [1], [(5, 5)], [[0]]⟩,
        [("P0".data, 1), ("U0".data, 0)]) ∧
    (⟨1, 2, 0, [], [], [0], [1], [(5, 5)], [[0]]⟩ : GraphData).io_id ≠
      List.range'
        (⟨1, 2, 0, [], [], [0], [1], [(5, 5)], [[0]]⟩ : GraphData).total_cell_number
        (⟨1, 2, 0, [], [], [0], [1], [(5, 5)], [[0]]⟩ : GraphData).total_io_number := by
  refine ⟨by decide, by decide⟩

/-- C8, amended: the assigned pin indices are exactly the contiguous range
`[total_cell_number, total_cell_number + n)` where `n` is the number of PINS
entries, one index per entry in declaration order; this coincides with the
claimed `[total_cell_number, total_cell_number + total_io_number)` exactly
when the declared pin count equals the entry count. -/
theorem c8_pin_index_range {info : List Char} {g : GraphData}
    {m : List (List Char × Nat)} (h : parse_def_file info = .ok (g, m)) :
    g.io_id = List.range' g.total_cell_number (pinEntriesOf info).length ∧
    ((pinEntriesOf info).length = g.total_io_number →
      g.io_id = List.range' g.total_cell_number g.total_io_number) := by
  obtain ⟨ni, cst, pst, h1, h2, h3, h4, h5, h6, _, _, _, _, hio, _, hm⟩ :=
    parse_ok_shape h
  obtain ⟨g1, g2⟩ := parsePinsAux_shape _ g.total_cell_number 0 _ _ h5
  have hid : g.io_id = List.range' g.total_cell_number (pinEntriesOf info).length := by
    rw [hio, g1]
    simp
  exact ⟨hid, fun hn => by rw [hid, hn]⟩

/-- C8, witness: on `sampleDef` the single pin receives exactly the index
range `[2, 3) = [2]`. -/
theorem c8_witness :
    sampleGraph.io_id =
      List.range' sampleGraph.total_cell_number (pinEntriesOf sampleDef).length ∧
    ((pinEntriesOf sampleDef).length = sampleGraph.total_io_number →
      sampleGraph.io_id =
        List.range' sampleGraph.total_cell_number sampleGraph.total_io_number) :=
  @c8_pin_index_range sampleDef sampleGraph sampleMap (by decide)

/-- C10: every successfully parsed input yields an internally consistent
`GraphData`: `fixed_node_num` equals the length of `fixed_id`, which equals
the length of `fixed_pos`; `io_id` and `io_pos` have equal lengths; and
`fixed_id` and `movable_id` are disjoint, strictly increasing, and together
cover exactly `{0, …, k-1}` for `k` the number of parsed COMPONENTS
entries. -/
theorem c10_graphdata_consistent {info : List Char} {g : GraphData}
    {m : List (List Char × Nat)} (h : parse_def_file info = .ok (g, m)) :
    g.fixed_node_num = g.fixed_id.length ∧
    g.fixed_id.length = g.fixed_pos.length ∧
    g.io_id.length = g.io_pos.length ∧
    List.Sorted (· < ·) g.fixed_id ∧
    List.Sorted (· < ·) g.movable_id ∧
    (∀ j, ¬(j ∈ g.fixed_id ∧ j ∈ g.movable_id)) ∧
    (∀ j, (j ∈ g.fixed_id ∨ j ∈ g.movable_id) ↔ j < (compEntriesOf info).length) ∧
    g.fixed_id.length + g.movable_id.length = (compEntriesOf info).length := by
  obtain ⟨ni, cst, pst, h1, h2, h3, h4, h5, h6, hfid, hfpos, hmov, hnum, hio,
    hiopos, hm⟩ := parse_ok_shape h
  obtain ⟨s1, s2, s3⟩ := parseCompsAux_shape _ 0 _ _ h4
  obtain ⟨p1, p2⟩ := parsePinsAux_shape _ g.total_cell_number 0 _ _ h5
  simp only [List.nil_append] at s1 s2
  have hfix : g.fixed_id = fixIdx 0 (compEntriesOf info) := by rw [hfid, s2]
  have hmv : g.movable_id = movIdx 0 (compEntriesOf info) := by rw [hmov, s1]
  refine ⟨?_, ?_, ?_, ?_, ?_, ?_, ?_, ?_⟩
  · rw [hnum, hfid]
  · rw [hfid, hfpos, s2, s3]
    simp
  · rw [hio, hiopos, p1, p2]
    simp
  · rw [hfix]; exact fixIdx_sorted _ 0
  · rw [hmv]; exact movIdx_sorted _ 0
  · intro j ⟨hjf, hjm⟩
    rw [hfix] at hjf
    rw [hmv] at hjm
    obtain ⟨k, hk, e1, e2⟩ := (mem_fixIdx _ 0 j).mp hjf
    obtain ⟨k', hk', e1', e2'⟩ := (mem_movIdx _ 0 j).mp hjm
    have hkk : k = k' := by omega
    subst hkk
    rw [e2'] at e2
    exact Bool.noConfusion e2
  · intro j
    rw [hfix, hmv]
    constructor
    · rintro (hj | hj)
      · obtain ⟨k, hk, e1, _⟩ := (mem_fixIdx _ 0 j).mp hj
        omega
      · obtain ⟨k, hk, e1, _⟩ := (mem_movIdx _ 0 j).mp hj
        omega
    · intro hj
      cases hef : entryFixed ((compEntriesOf info).get ⟨j, hj⟩) with
      | true => exact Or.inl ((mem_fixIdx _ 0 j).mpr ⟨j, hj, by omega, hef⟩)
      | false => exact Or.inr ((mem_movIdx _ 0 j).mpr ⟨j, hj, by omega, hef⟩)
  · rw [hfix, hmv]
    have := movIdx_fixIdx_length (compEntriesOf info) 0
    omega

/-- C10, witness: the consistency facts on the graph parsed from
`sampleDef`. -/
theorem c10_witness :
    sampleGraph.fixed_node_num = sampleGraph.fixed_id.length ∧
    sampleGraph.fixed_id.length = sampleGraph.fixed_pos.length ∧
    sampleGraph.io_id.length = sampleGraph.io_pos.length ∧
    List.Sorted (· < ·) sampleGraph.fixed_id ∧
    List.Sorted (· < ·) sampleGraph.movable_id ∧
    (∀ j, ¬(j ∈ sampleGraph.fixed_id ∧ j ∈ sampleGraph.movable_id)) ∧
    (∀ j, (j ∈ sampleGraph.fixed_id ∨ j ∈ sampleGraph.movable_id) ↔
      j < (compEntriesOf sampleDef).length) ∧
    sampleGraph.fixed_id.length + sampleGraph.movable_id.length =
      (compEntriesOf sampleDef).length :=
  @c10_graphdata_consistent sampleDef sampleGraph sampleMap (by decide)

/-- C6, counterexample.  `caseCompLowerDef` differs from `caseBaseDef` only
in letter case (their lower-casings coincide), with exactly the COMPONENTS
section keywords lower-cased — yet the parse result changes from success to
a `KeyError`, because `info.find("COMPONENTS")` / `info.find("END
COMPONENTS")` on line 80 are case-sensitive and the component section comes
back empty. -/
theorem c6_counterexample :
    caseBaseDef.map Char.toLower = caseCompLowerDef.map Char.toLower ∧
    parse_def_file caseBaseDef =
      .ok (⟨1, 0, 0, [], [], [0], [], [], [[0]]⟩, [("U0".data, 0)]) ∧
    parse_def_file caseCompLowerDef = .error (.keyErr "U0".data) ∧
    parse_def_file caseBaseDef ≠ parse_def_file caseCompLowerDef := by
  refine ⟨by decide, by decide, by decide, by decide⟩

/-- C6, amended: only the NETS boundary markers (and the declared-count
patterns, all compiled with `re.IGNORECASE`) are case-insensitive; the
COMPONENTS and PINS section spans are located by case-sensitive substring
search.  Lower-casing exactly the NETS keywords leaves the parse result
unchanged, while lower-casing the COMPONENTS keywords changes it. -/
theorem c6_nets_markers_case_insensitive :
    caseBaseDef.map Char.toLower = caseNetsLowerDef.map Char.toLower ∧
    parse_def_file caseNetsLowerDef = parse_def_file caseBaseDef ∧
    parse_def_file caseBaseDef =
      .ok (⟨1, 0, 0, [], [], [0], [], [], [[0]]⟩, [("U0".data, 0)]) := by
  refine ⟨by decide, by decide, by decide⟩

/-- `Except.map` never turns success into the exhaustion error or back. -/
theorem injMap_eq_error_iff {A B : Type} (f : A → B) (r : Except InjErr A) :
    Except.map f r = .error .inputExhaustion ↔ r = .error .inputExhaustion := by
  cases r with
  | error e => cases e; simp [Except.map]
  | ok v => simp [Except.map]

/-- The exhaustion error fires exactly when fewer positions are supplied
than there are `UNPLACED` lines. -/
theorem save_err_iff :
    ∀ (lines : List (List Char)) (ps : List (Int × Int)),
    save_locations_to_def lines ps = .error .inputExhaustion ↔
      ps.length < countUnplacedLines lines := by
  intro lines
  induction lines with
  | nil =>
    intro ps
    simp [save_locations_to_def, countUnplacedLines]
  | cons line rest ih =>
    intro ps
    by_cases hu : hasSub U8 line
    · have hcount : countUnplacedLines (line :: rest) = countUnplacedLines rest + 1 := by
        simp [countUnplacedLines, List.filter, hu]
      cases ps with
      | nil =>
        rw [hcount]
        simp [save_locations_to_def, hu]
      | cons p ps' =>
        obtain ⟨x, y⟩ := p
        have hstep : save_locations_to_def (line :: rest) ((x, y) :: ps') =
            (save_locations_to_def rest ps').map (fun r =>
              (replaceFirst U8 (placedClause x y) line :: r.1, r.2)) := by
          simp [save_locations_to_def, hu]
        rw [hstep, hcount, injMap_eq_error_iff, ih ps']
        simp only [List.length_cons]
        omega
    · have hcount : countUnplacedLines (line :: rest) = countUnplacedLines rest := by
        simp [countUnplacedLines, List.filter, hu]
      have hstep : save_locations_to_def (line :: rest) ps =
          (save_locations_to_def rest ps).map (fun r => (line :: r.1, r.2)) := by
        simp [save_locations_to_def, hu]
      rw [hstep, hcount, injMap_eq_error_iff, ih ps]

/-- On success the warning flag records surplus positions exactly, and the
output only depends on the consumed prefix of the positions. -/
theorem save_ok_spec :
    ∀ (lines : List (List Char)) (ps : List (Int × Int))
      (out : List (List Char)) (w : Bool),
    save_locations_to_def lines ps = .ok (out, w) →
    (w = true ↔ countUnplacedLines lines < ps.length) ∧
    save_locations_to_def lines (ps.take (countUnplacedLines lines)) =
      .ok (out, false) := by
  intro lines
  induction lines with
  | nil =>
    intro ps out w h
    simp only [save_locations_to_def] at h
    injection h with h
    injection h with h1 h2
    subst h1
    subst h2
    constructor
    · cases ps <;> simp [countUnplacedLines]
    · simp [countUnplacedLines, save_locations_to_def]
  | cons line rest ih =>
    intro ps out w h
    by_cases hu : hasSub U8 line
    · have hcount : countUnplacedLines (line :: rest) = countUnplacedLines rest + 1 := by
        simp [countUnplacedLines, List.filter, hu]
      cases ps with
      | nil =>
        simp only [save_locations_to_def, if_pos hu] at h
        exact Except.noConfusion h
      | cons p ps' =>
        obtain ⟨x, y⟩ := p
        have hstep : save_locations_to_def (line :: rest) ((x, y) :: ps') =
            (save_locations_to_def rest ps').map (fun r =>
              (replaceFirst U8 (placedClause x y) line :: r.1, r.2)) := by
          simp [save_locations_to_def, hu]
        rw [hstep] at h
        cases hr : save_locations_to_def rest ps' with
        | error e => rw [hr] at h; simp only [Except.map] at h; exact Except.noConfusion h
        | ok r =>
          rw [hr] at h
          simp only [Except.map] at h
          injection h with h
          obtain ⟨out', w'⟩ := r
          injection h with h1 h2
          subst h2
          obtain ⟨iw, itake⟩ := ih ps' out' w' hr
          constructor
          · rw [iw, hcount]
            simp only [List.length_cons]
            omega
          · rw [hcount, List.take_succ_cons]
            have hstep2 : save_locations_to_def (line :: rest)
                ((x, y) :: ps'.take (countUnplacedLines rest)) =
                (save_locations_to_def rest (ps'.take (countUnplacedLines rest))).map
                  (fun r => (replaceFirst U8 (placedClause x y) line :: r.1, r.2)) := by
              simp [save_locations_to_def, hu]
            rw [hstep2, itake]
            simp only [Except.map]
            rw [← h1]
    · have hcount : countUnplacedLines (line :: rest) = countUnplacedLines rest := by
        simp [countUnplacedLines, List.filter, hu]
      have hstep : ∀ qs, save_locations_to_def (line :: rest) qs =
          (save_locations_to_def rest qs).map (fun r => (line :: r.1, r.2)) := by
        intro qs
        simp [save_locations_to_def, hu]
      rw [hstep] at h
      cases hr : save_locations_to_def rest ps with
      | error e => rw [hr] at h; simp only [Except.map] at h; exact Except.noConfusion h
      | ok r =>
        rw [hr] at h
        simp only [Except.map] at h
        injection h with h
        obtain ⟨out', w'⟩ := r
        injection h with h1 h2
        subst h2
        obtain ⟨iw, itake⟩ := ih ps out' w' hr
        refine ⟨by rw [iw, hcount], ?_⟩
        rw [hcount, hstep, itake]
        simp only [Except.map]
        rw [← h1]

/-- C9: the injector raises the exhaustion error exactly when fewer
positions are supplied than there are `UNPLACED` lines; with at least as
many positions it completes, the surplus warning fires exactly when
positions are left over, and the surplus values are discarded — the output
equals the one obtained from exactly the consumed prefix of the
positions. -/
theorem c9_exhaustion_iff (lines : List (List Char)) (ps : List (Int × Int)) :
    (save_locations_to_def lines ps = .error .inputExhaustion ↔
      ps.length < countUnplacedLines lines) ∧
    (∀ out w, save_locations_to_def lines ps = .ok (out, w) →
      (w = true ↔ countUnplacedLines lines < ps.length) ∧
      save_locations_to_def lines (ps.take (countUnplacedLines lines)) =
        .ok (out, false)) :=
  ⟨save_err_iff lines ps, fun out w h => save_ok_spec lines ps out w h⟩

/-- C9, witness: on a two-line file with one `UNPLACED` line and two
supplied positions the run completes with the surplus warning, and the
output equals the run on just the consumed first position. -/
theorem c9_witness :
    (true = true ↔ countUnplacedLines injLinesSample < injPosSample.length) ∧
    save_locations_to_def injLinesSample
      (injPosSample.take (countUnplacedLines injLinesSample)) =
      .ok (injOutSample, false) :=
  (c9_exhaustion_iff injLinesSample injPosSample).2 injOutSample true (by decide)

/-! ### Substring lemmas for the injection round trip -/

theorem prefixOf_mono_append :
    ∀ (pat x z : List Char), pat.isPrefixOf x = true → pat.isPrefixOf (x ++ z) = true := by
  intro pat
  induction pat with
  | nil => intro x z _; simp [List.isPrefixOf]
  | cons p pr ih =>
    intro x z h
    cases x with
    | nil => simp [List.isPrefixOf] at h
    | cons c t =>
      simp only [List.isPrefixOf, Bool.and_eq_true] at h ⊢
      exact ⟨h.1, ih t z h.2⟩

theorem prefixOf_append_of_le :
    ∀ (pat x z : List Char), pat.length ≤ x.length →
    (pat.isPrefixOf (x ++ z) = pat.isPrefixOf x) := by
  intro pat
  induction pat with
  | nil => intro x z _; simp [List.isPrefixOf]
  | cons p pr ih =>
    intro x z hlen
    cases x with
    | nil => simp at hlen
    | cons c t =>
      simp only [List.cons_append, List.isPrefixOf, List.append_eq]
      rw [ih t z (by simpa using Nat.le_of_succ_le_succ hlen)]

theorem prefixOf_split :
    ∀ (x pat z : List Char), pat.isPrefixOf (x ++ z) = true →
    x.length < pat.length →
    x = pat.take x.length ∧ (pat.drop x.length).isPrefixOf z = true := by
  intro x
  induction x with
  | nil => intro pat z h _; exact ⟨rfl, h⟩
  | cons c t ih =>
    intro pat z h hlen
    cases pat with
    | nil => simp at hlen
    | cons p pr =>
      simp only [List.cons_append, List.isPrefixOf, Bool.and_eq_true, beq_iff_eq] at h
      obtain ⟨hpc, hrest⟩ := ih pr z h.2 (by simpa using Nat.lt_of_succ_lt_succ hlen)
      refine ⟨?_, by simpa using hrest⟩
      simp only [List.length_cons, List.take_succ_cons]
      rw [← hpc, h.1]

theorem prefixOf_cons_head {a : Char} {as b : List Char} {c : Char} {t : List Char}
    (hb : b = c :: t) (h : (a :: as).isPrefixOf b = true) : a = c := by
  subst hb
  simp only [List.isPrefixOf, Bool.and_eq_true, beq_iff_eq] at h
  exact h.1

theorem drop_append_le :
    ∀ (a : List Char) (i : Nat) (b : List Char), i ≤ a.length →
    (a ++ b).drop i = a.drop i ++ b := by
  intro a
  induction a with
  | nil =>
    intro i b h
    have hi : i = 0 := Nat.le_zero.mp h
    subst hi
    simp
  | cons c t ih =>
    intro i b h
    cases i with
    | zero => simp
    | succ j => simpa using ih j b (by simpa using Nat.le_of_succ_le_succ h)

theorem hasSub_append_right :
    ∀ (pat a b : List Char), hasSub pat b = true → hasSub pat (a ++ b) = true := by
  intro pat a
  induction a with
  | nil => intro b h; simpa using h
  | cons c t ih =>
    intro b h
    simp only [List.cons_append, hasSub, Bool.or_eq_true]
    exact Or.inr (ih b h)

theorem hasSub_append_left :
    ∀ (pat a b : List Char), hasSub pat a = true → hasSub pat (a ++ b) = true := by
  intro pat a
  induction a with
  | nil =>
    intro b h
    simp only [hasSub, List.isEmpty_iff] at h
    subst h
    cases b with
    | nil => simp [hasSub]
    | cons c t => simp [hasSub, List.isPrefixOf]
  | cons c t ih =>
    intro b h
    simp only [hasSub, Bool.or_eq_true] at h ⊢
    rcases h with h | h
    · exact Or.inl (by simpa using prefixOf_mono_append pat (c :: t) b h)
    · exact Or.inr (ih b h)

theorem hasSub_of_prefixOf_drop :
    ∀ (pat s : List Char) (i : Nat), pat.isPrefixOf (s.drop i) = true →
    hasSub pat s = true := by
  intro pat s
  induction s with
  | nil =>
    intro i h
    simp only [List.drop_nil] at h
    cases pat with
    | nil => simp [hasSub]
    | cons p pr => simp [List.isPrefixOf] at h
  | cons c t ih =>
    intro i h
    cases i with
    | zero =>
      simp only [List.drop_zero] at h
      simp [hasSub, h]
    | succ j =>
      simp only [List.drop_succ_cons] at h
      simp only [hasSub, Bool.or_eq_true]
      exact Or.inr (ih j h)

theorem prefixOf_refl : ∀ l : List Char, l.isPrefixOf l = true := by
  intro l
  induction l with
  | nil => rfl
  | cons c t ih => simp [List.isPrefixOf, ih]

theorem hasSub_sandwich :
    ∀ (pat a b : List Char), pat ≠ [] → hasSub pat (a ++ pat ++ b) = true := by
  intro pat a b hne
  apply hasSub_append_left
  apply hasSub_append_right
  cases pat with
  | nil => exact absurd rfl hne
  | cons p pr =>
    simp only [hasSub, Bool.or_eq_true]
    exact Or.inl (prefixOf_refl (p :: pr))

theorem countOccs_zero_iff :
    ∀ (pat s : List Char), pat ≠ [] →
    (countOccs pat s = 0 ↔ hasSub pat s = false) := by
  intro pat s hne
  induction s with
  | nil =>
    cases pat with
    | nil => exact absurd rfl hne
    | cons p pr => simp [countOccs, hasSub]
  | cons c t ih =>
    simp only [countOccs, hasSub, Bool.or_eq_false_iff]
    by_cases hp : pat.isPrefixOf (c :: t) = true
    · rw [hp]
      simp
    · rw [Bool.not_eq_true] at hp
      rw [hp]
      simpa using ih

theorem countOccs_append_no_occ :
    ∀ (pat a b : List Char),
    (∀ i, i < a.length → pat.isPrefixOf (a.drop i ++ b) = false) →
    countOccs pat (a ++ b) = countOccs pat b := by
  intro pat a
  induction a with
  | nil => intro b _; simp
  | cons c t ih =>
    intro b h
    have h0 : pat.isPrefixOf (c :: (t ++ b)) = false := by
      simpa using h 0 (by simp)
    have ht : countOccs pat (t ++ b) = countOccs pat b :=
      ih b (fun i hi => by simpa using h (i + 1) (by simpa using Nat.succ_lt_succ hi))
    simp only [List.cons_append, countOccs, List.append_eq, h0, ht]
    simp

theorem countOccs_le_append :
    ∀ (pat a b : List Char), countOccs pat b ≤ countOccs pat (a ++ b) := by
  intro pat a
  induction a with
  | nil => intro b; simp
  | cons c t ih =>
    intro b
    have := ih b
    simp only [List.cons_append, countOccs, List.append_eq]
    split <;> omega

theorem digitChar_isDigit : ∀ n : Nat, n < 10 → (Nat.digitChar n).isDigit = true := by
  intro n h
  interval_cases n <;> decide

theorem natDecAux_chars :
    ∀ (fuel n : Nat), ∀ c ∈ natDecAux fuel n, c.isDigit = true := by
  intro fuel
  induction fuel with
  | zero => intro n c hc; simp [natDecAux] at hc
  | succ f ih =>
    intro n c hc
    unfold natDecAux at hc
    by_cases hn : n < 10
    · rw [if_pos hn] at hc
      simp only [List.mem_singleton] at hc
      subst hc
      exact digitChar_isDigit n hn
    · rw [if_neg hn] at hc
      rcases List.mem_append.mp hc with h1 | h1
      · exact ih (n / 10) c h1
      · simp only [List.mem_singleton] at h1
        subst h1
        exact digitChar_isDigit _ (Nat.mod_lt _ (by omega))

theorem intDec_chars :
    ∀ (i : Int), ∀ c ∈ intDec i, c.isDigit = true ∨ c = '-' := by
  intro i c hc
  unfold intDec at hc
  by_cases hi : i < 0
  · rw [if_pos hi] at hc
    rcases List.mem_cons.mp hc with h1 | h1
    · exact Or.inr h1
    · exact Or.inl (natDecAux_chars _ _ c h1)
  · rw [if_neg hi] at hc
    exact Or.inl (natDecAux_chars _ _ c hc)

/-- The tail of the placed clause after its leading `P`. -/
def pcTail (x y : Int) : List Char :=
  "LACED ( ".data ++ (intDec x ++ ' ' :: (intDec y ++ " ) N".data))

theorem placedClause_eq (x y : Int) :
    placedClause x y = 'P' :: pcTail x y := rfl

theorem pcTail_ne_P : ∀ (x y : Int), ∀ c ∈ pcTail x y, c ≠ 'P' := by
  intro x y c hc
  unfold pcTail at hc
  rcases List.mem_append.mp hc with h1 | h1
  · exact (by decide : ∀ d ∈ "LACED ( ".data, d ≠ 'P') c h1
  · rcases List.mem_append.mp h1 with h2 | h2
    · rcases intDec_chars x c h2 with h3 | h3
      · intro he; subst he; simp at h3
      · subst h3; decide
    · rcases List.mem_cons.mp h2 with h3 | h3
      · subst h3; decide
      · rcases List.mem_append.mp h3 with h4 | h4
        · rcases intDec_chars y c h4 with h5 | h5
          · intro he; subst he; simp at h5
          · subst h5; decide
        · exact (by decide : ∀ d ∈ " ) N".data, d ≠ 'P') c h4

theorem placedClause_ne_U : ∀ (x y : Int), ∀ c ∈ placedClause x y, c ≠ 'U' := by
  intro x y c hc
  rw [placedClause_eq] at hc
  rcases List.mem_cons.mp hc with h1 | h1
  · subst h1; decide
  · intro he
    subst he
    have h2 := pcTail_ne_P x y 'U' h1
    unfold pcTail at h1
    rcases List.mem_append.mp h1 with h3 | h3
    · exact (by decide : ∀ d ∈ "LACED ( ".data, d ≠ 'U') 'U' h3 rfl
    · rcases List.mem_append.mp h3 with h4 | h4
      · rcases intDec_chars x 'U' h4 with h5 | h5 <;> simp at h5
      · rcases List.mem_cons.mp h4 with h5 | h5
        · simp at h5
        · rcases List.mem_append.mp h5 with h6 | h6
          · rcases intDec_chars y 'U' h6 with h7 | h7 <;> simp at h7
          · exact (by decide : ∀ d ∈ " ) N".data, d ≠ 'U') 'U' h6 rfl

theorem prefixOf_exists :
    ∀ (pat s : List Char), pat.isPrefixOf s = true → s = pat ++ s.drop pat.length := by
  intro pat
  induction pat with
  | nil => intro s _; simp
  | cons p pr ih =>
    intro s h
    cases s with
    | nil => simp [List.isPrefixOf] at h
    | cons c t =>
      simp only [List.isPrefixOf, Bool.and_eq_true, beq_iff_eq] at h
      obtain ⟨hpc, hrest⟩ := h
      have := ih t hrest
      simp only [List.length_cons, List.drop_succ_cons, List.cons_append]
      rw [hpc, ← this]

theorem replaceFirst_decomp (pat repl : List Char) (hne : pat ≠ []) :
    ∀ s, hasSub pat s = true →
    ∃ pre suf, s = (pre ++ pat) ++ suf ∧
      replaceFirst pat repl s = (pre ++ repl) ++ suf ∧
      ∀ i, i < pre.length → pat.isPrefixOf (s.drop i) = false := by
  intro s
  induction s with
  | nil =>
    intro h
    simp only [hasSub, List.isEmpty_iff] at h
    exact absurd h hne
  | cons c t ih =>
    intro h
    by_cases hp : pat.isPrefixOf (c :: t) = true
    · refine ⟨[], (c :: t).drop pat.length, ?_, ?_, ?_⟩
      · simpa using prefixOf_exists pat (c :: t) hp
      · simp only [replaceFirst, if_pos hp, List.nil_append]
      · intro i hi
        simp at hi
    · simp only [hasSub, Bool.or_eq_true] at h
      rcases h with h | h
      · exact absurd h hp
      · obtain ⟨pre, suf, e1, e2, e3⟩ := ih h
        refine ⟨c :: pre, suf, ?_, ?_, ?_⟩
        · rw [List.cons_append, List.cons_append, ← e1]
        · rw [replaceFirst, if_neg hp, e2, List.cons_append, List.cons_append]
        · intro i hi
          cases i with
          | zero =>
            simp only [List.drop_zero]
            exact Bool.not_eq_true _ ▸ hp
          | succ j =>
            simp only [List.drop_succ_cons]
            exact e3 j (by simpa using Nat.lt_of_succ_lt_succ hi)

theorem pc_head (x y : Int) (suf : List Char) :
    ∃ r, placedClause x y ++ suf = 'P' :: r :=
  ⟨pcTail x y ++ suf, by rw [placedClause_eq, List.cons_append]⟩

theorem U8_drop_not_prefix_pc (x y : Int) (suf : List Char) :
    ∀ d, 1 ≤ d → d ≤ 7 → d ≠ 2 →
    (U8.drop d).isPrefixOf (placedClause x y ++ suf) = false := by
  intro d h1 h7 h2
  obtain ⟨r, hr⟩ := pc_head x y suf
  interval_cases d
  · by_contra hb
    rw [Bool.not_eq_false] at hb
    have hh := @prefixOf_cons_head 'N' "PLACED".data _ _ _ hr hb
    exact absurd hh (by decide)
  · omega
  · by_contra hb
    rw [Bool.not_eq_false] at hb
    have hh := @prefixOf_cons_head 'L' "ACED".data _ _ _ hr hb
    exact absurd hh (by decide)
  · by_contra hb
    rw [Bool.not_eq_false] at hb
    have hh := @prefixOf_cons_head 'A' "CED".data _ _ _ hr hb
    exact absurd hh (by decide)
  · by_contra hb
    rw [Bool.not_eq_false] at hb
    have hh := @prefixOf_cons_head 'C' "ED".data _ _ _ hr hb
    exact absurd hh (by decide)
  · by_contra hb
    rw [Bool.not_eq_false] at hb
    have hh := @prefixOf_cons_head 'E' "D".data _ _ _ hr hb
    exact absurd hh (by decide)
  · by_contra hb
    rw [Bool.not_eq_false] at hb
    have hh := @prefixOf_cons_head 'D' ([] : List Char) _ _ _ hr hb
    exact absurd hh (by decide)

theorem P9_drop_not_prefix_pc (x y : Int) (suf : List Char) :
    ∀ d, 1 ≤ d → d ≤ 8 →
    (P9.drop d).isPrefixOf (placedClause x y ++ suf) = false := by
  intro d h1 h8
  obtain ⟨r, hr⟩ := pc_head x y suf
  interval_cases d
  · by_contra hb
    rw [Bool.not_eq_false] at hb
    exact absurd (@prefixOf_cons_head 'L' "ACED ( ".data _ _ _ hr hb) (by decide)
  · by_contra hb
    rw [Bool.not_eq_false] at hb
    exact absurd (@prefixOf_cons_head 'A' "CED ( ".data _ _ _ hr hb) (by decide)
  · by_contra hb
    rw [Bool.not_eq_false] at hb
    exact absurd (@prefixOf_cons_head 'C' "ED ( ".data _ _ _ hr hb) (by decide)
  · by_contra hb
    rw [Bool.not_eq_false] at hb
    exact absurd (@prefixOf_cons_head 'E' "D ( ".data _ _ _ hr hb) (by decide)
  · by_contra hb
    rw [Bool.not_eq_false] at hb
    exact absurd (@prefixOf_cons_head 'D' " ( ".data _ _ _ hr hb) (by decide)
  · by_contra hb
    rw [Bool.not_eq_false] at hb
    exact absurd (@prefixOf_cons_head ' ' "( ".data _ _ _ hr hb) (by decide)
  · by_contra hb
    rw [Bool.not_eq_false] at hb
    exact absurd (@prefixOf_cons_head '(' " ".data _ _ _ hr hb) (by decide)
  · by_contra hb
    rw [Bool.not_eq_false] at hb
    exact absurd (@prefixOf_cons_head ' ' ([] : List Char) _ _ _ hr hb) (by decide)

theorem no_cross_U8 (pre suf : List Char) (x y : Int)
    (hUU : hasSub UU10 ((pre ++ U8) ++ suf) = false)
    (hleft : ∀ i, i < pre.length → U8.isPrefixOf ((pre.drop i ++ U8) ++ suf) = false) :
    ∀ i, i < pre.length → U8.isPrefixOf (pre.drop i ++ (placedClause x y ++ suf)) = false := by
  intro i hi
  by_contra hb
  rw [Bool.not_eq_false] at hb
  have h8 : U8.length = 8 := rfl
  have hdlen : (pre.drop i).length = pre.length - i := by simp
  by_cases hbig : 8 ≤ (pre.drop i).length
  · have heq := prefixOf_append_of_le U8 (pre.drop i) (placedClause x y ++ suf) (by omega)
    rw [heq] at hb
    have hmono := prefixOf_mono_append U8 (pre.drop i) (U8 ++ suf) hb
    rw [← List.append_assoc] at hmono
    rw [hleft i hi] at hmono
    exact Bool.noConfusion hmono
  · have h1 : 1 ≤ (pre.drop i).length := by omega
    obtain ⟨he, hrest⟩ := prefixOf_split (pre.drop i) U8 (placedClause x y ++ suf) hb
      (by omega)
    by_cases h2 : (pre.drop i).length = 2
    · rw [h2] at he
      have hUN : pre.drop i = 'U' :: 'N' :: [] := by rw [he]; rfl
      have hpre : pre = pre.take i ++ ('U' :: 'N' :: []) := by
        conv_lhs => rw [← List.take_append_drop i pre]
        rw [hUN]
      have hwhole : (pre ++ U8) ++ suf = (pre.take i ++ UU10) ++ suf := by
        conv_lhs => rw [hpre]
        rw [show UU10 = ('U' :: 'N' :: []) ++ U8 from rfl, ← List.append_assoc]
      rw [hwhole] at hUU
      rw [hasSub_sandwich UU10 (pre.take i) suf (by decide)] at hUU
      exact Bool.noConfusion hUU
    · rw [U8_drop_not_prefix_pc x y suf (pre.drop i).length h1 (by omega) h2] at hrest
      exact Bool.noConfusion hrest

theorem no_cross_P9 (pre suf : List Char) (x y : Int)
    (hP : hasSub P9 ((pre ++ U8) ++ suf) = false) :
    ∀ i, i < pre.length → P9.isPrefixOf (pre.drop i ++ (placedClause x y ++ suf)) = false := by
  intro i hi
  by_contra hb
  rw [Bool.not_eq_false] at hb
  have h9 : P9.length = 9 := rfl
  have hdlen : (pre.drop i).length = pre.length - i := by simp
  by_cases hbig : 9 ≤ (pre.drop i).length
  · have heq := prefixOf_append_of_le P9 (pre.drop i) (placedClause x y ++ suf) (by omega)
    rw [heq] at hb
    have h1 : hasSub P9 pre = true := hasSub_of_prefixOf_drop P9 pre i hb
    have h2 : hasSub P9 ((pre ++ U8) ++ suf) = true :=
      hasSub_append_left P9 (pre ++ U8) suf (hasSub_append_left P9 pre U8 h1)
    rw [h2] at hP
    exact Bool.noConfusion hP
  · have h1 : 1 ≤ (pre.drop i).length := by omega
    obtain ⟨he, hrest⟩ := prefixOf_split (pre.drop i) P9 (placedClause x y ++ suf) hb
      (by omega)
    rw [P9_drop_not_prefix_pc x y suf (pre.drop i).length h1 (by omega)] at hrest
    exact Bool.noConfusion hrest

theorem countOccs_U8_pc (x y : Int) (suf : List Char)
    (hsuf : countOccs U8 suf = 0) :
    countOccs U8 (placedClause x y ++ suf) = 0 := by
  rw [countOccs_append_no_occ U8 (placedClause x y) suf ?_]
  · exact hsuf
  · intro j hj
    by_contra hb
    rw [Bool.not_eq_false] at hb
    rw [List.drop_eq_getElem_cons hj, List.cons_append] at hb
    have hc := @prefixOf_cons_head 'U' "NPLACED".data _ _ _ rfl hb
    exact absurd hc.symm (placedClause_ne_U x y _ (List.getElem_mem hj))

theorem countOccs_P9_pc (x y : Int) (suf : List Char)
    (hsuf : hasSub P9 suf = false) :
    countOccs P9 (placedClause x y ++ suf) = 1 := by
  have hc1 : countOccs P9 (placedClause x y ++ suf) =
      (if P9.isPrefixOf (placedClause x y ++ suf) = true then 1 else 0) +
        countOccs P9 (pcTail x y ++ suf) := rfl
  have hpref : P9.isPrefixOf (placedClause x y ++ suf) = true := by
    have hassoc : placedClause x y ++ suf =
        P9 ++ ((intDec x ++ ' ' :: (intDec y ++ " ) N".data)) ++ suf) := by
      unfold placedClause
      simp [List.append_assoc]
    rw [hassoc]
    exact prefixOf_mono_append P9 P9 _ (prefixOf_refl P9)
  have hTail : countOccs P9 (pcTail x y ++ suf) = countOccs P9 suf := by
    apply countOccs_append_no_occ
    intro j hj
    by_contra hb
    rw [Bool.not_eq_false] at hb
    rw [List.drop_eq_getElem_cons hj, List.cons_append] at hb
    have hc := @prefixOf_cons_head 'P' "LACED ( ".data _ _ _ rfl hb
    exact absurd hc.symm (pcTail_ne_P x y _ (List.getElem_mem hj))
  have hsuf0 : countOccs P9 suf = 0 := (countOccs_zero_iff P9 suf (by decide)).mpr hsuf
  rw [hc1, hpref, hTail, hsuf0]
  simp

theorem replaceFirst_counts (l : List Char) (x y : Int)
    (h1 : countOccs U8 l = 1) (h2 : hasSub UU10 l = false)
    (h3 : hasSub P9 l = false) :
    countOccs U8 (replaceFirst U8 (placedClause x y) l) = 0 ∧
    countOccs P9 (replaceFirst U8 (placedClause x y) l) = 1 := by
  have hne : U8 ≠ [] := by decide
  have hs : hasSub U8 l = true := by
    by_contra hq
    rw [Bool.not_eq_true] at hq
    rw [(countOccs_zero_iff U8 l hne).mpr hq] at h1
    exact absurd h1 (by decide)
  obtain ⟨pre, suf, e1, e2, e3⟩ := replaceFirst_decomp U8 (placedClause x y) hne l hs
  have hleft : ∀ i, i < pre.length → U8.isPrefixOf ((pre.drop i ++ U8) ++ suf) = false := by
    intro i hi
    have h0 := e3 i hi
    rw [e1] at h0
    rw [drop_append_le (pre ++ U8) i suf (by simp; omega),
        drop_append_le pre i U8 (by omega)] at h0
    exact h0
  have hcount1 : countOccs U8 ((pre ++ U8) ++ suf) = countOccs U8 (U8 ++ suf) := by
    rw [List.append_assoc]
    apply countOccs_append_no_occ
    intro i hi
    have h0 := hleft i hi
    rw [List.append_assoc] at h0
    exact h0
  have hcount2 : countOccs U8 (U8 ++ suf) = 1 := by
    rw [← hcount1, ← e1]
    exact h1
  have hsuf0 : countOccs U8 suf = 0 := by
    have hstep : countOccs U8 (U8 ++ suf) =
        (if U8.isPrefixOf (U8 ++ suf) = true then 1 else 0) +
          countOccs U8 ("NPLACED".data ++ suf) := rfl
    have hpref : U8.isPrefixOf (U8 ++ suf) = true :=
      prefixOf_mono_append U8 U8 suf (prefixOf_refl U8)
    rw [hstep] at hcount2
    simp only [hpref, eq_self_iff_true, if_true] at hcount2
    have hconv : countOccs U8 ("NPLACED".data ++ suf) =
        countOccs U8 (['N', 'P', 'L', 'A', 'C', 'E', 'D'] ++ suf) := rfl
    rw [hconv] at hcount2
    have hle := countOccs_le_append U8 ['N', 'P', 'L', 'A', 'C', 'E', 'D'] suf
    omega
  have hsufhas : hasSub U8 suf = false := (countOccs_zero_iff U8 suf hne).mp hsuf0
  have hUUpre : hasSub UU10 ((pre ++ U8) ++ suf) = false := by rw [← e1]; exact h2
  have hPpre : hasSub P9 ((pre ++ U8) ++ suf) = false := by rw [← e1]; exact h3
  have hPsuf : hasSub P9 suf = false := by
    by_contra hq
    rw [Bool.not_eq_false] at hq
    rw [hasSub_append_right P9 (pre ++ U8) suf hq] at hPpre
    exact Bool.noConfusion hPpre
  constructor
  · rw [e2, List.append_assoc]
    rw [countOccs_append_no_occ U8 pre (placedClause x y ++ suf)
      (no_cross_U8 pre suf x y hUUpre hleft)]
    exact countOccs_U8_pc x y suf hsuf0
  · rw [e2, List.append_assoc]
    rw [countOccs_append_no_occ P9 pre (placedClause x y ++ suf)
      (no_cross_P9 pre suf x y hPpre)]
    exact countOccs_P9_pc x y suf hPsuf

theorem sumCount_cons (pat l : List Char) (rest : List (List Char)) :
    sumCount pat (l :: rest) = countOccs pat l + sumCount pat rest := by
  simp [sumCount]

/-- C5, counterexample.  `injBadLines` contains exactly 3 occurrences of
`UNPLACED` and 3 positions are supplied, yet the output still contains 2
occurrences: only the first occurrence per line is replaced, and in
`UNUNPLACED` the replacement re-creates the marker from the preceding
`UN`. -/
theorem c5_counterexample :
    sumCount U8 injBadLines = 3 ∧
    save_locations_to_def injBadLines [(0, 0), (7, 8), (9, 9)] =
      .ok (injBadOut, true) ∧
    sumCount U8 injBadOut = 2 := by
  refine ⟨by decide, by decide, by decide⟩

/-- C5, amended: the round trip holds under the hypotheses the substring
mechanics force: every line holds at most one `UNPLACED` occurrence (here:
lines that contain it count exactly one), no line contains `UNUNPLACED`
(an occurrence preceded by `UN`), and no line already contains the clause
prefix `PLACED ( `.  Then, for a position sequence whose length is exactly
the number of `UNPLACED` occurrences, injection succeeds without warning,
the output has zero `UNPLACED` occurrences and exactly `n` `PLACED ( x y ) N`
clauses (counted by their `PLACED ( ` prefix), in original line order, with
every line not containing `UNPLACED` byte-identical to its input line. -/
theorem c5_injection_round_trip :
    ∀ (lines : List (List Char)) (ps : List (Int × Int)),
    (∀ l ∈ lines, hasSub U8 l = true → countOccs U8 l = 1) →
    (∀ l ∈ lines, hasSub UU10 l = false) →
    (∀ l ∈ lines, hasSub P9 l = false) →
    ps.length = sumCount U8 lines →
    ∃ out, save_locations_to_def lines ps = .ok (out, false) ∧
      out.length = lines.length ∧
      sumCount U8 out = 0 ∧
      sumCount P9 out = ps.length ∧
      (∀ (i : Nat) (l' : List Char), lines[i]? = some l' →
        hasSub U8 l' = false → out[i]? = some l') ∧
      (∀ (i : Nat) (l' : List Char), lines[i]? = some l' →
        hasSub U8 l' = true →
        ∃ x y, out[i]? = some (replaceFirst U8 (placedClause x y) l')) := by
  intro lines
  induction lines with
  | nil =>
    intro ps h1 h2 h3 hn
    simp only [sumCount, List.map_nil, List.sum_nil] at hn
    have hps : ps = [] := List.length_eq_zero.mp hn
    subst hps
    refine ⟨[], rfl, rfl, rfl, rfl, ?_, ?_⟩
    · intro i l' hi
      simp at hi
    · intro i l' hi
      simp at hi
  | cons l rest ih =>
    intro ps h1 h2 h3 hn
    have h1r : ∀ l' ∈ rest, hasSub U8 l' = true → countOccs U8 l' = 1 :=
      fun l' hm => h1 l' (List.mem_cons_of_mem _ hm)
    have h2r : ∀ l' ∈ rest, hasSub UU10 l' = false :=
      fun l' hm => h2 l' (List.mem_cons_of_mem _ hm)
    have h3r : ∀ l' ∈ rest, hasSub P9 l' = false :=
      fun l' hm => h3 l' (List.mem_cons_of_mem _ hm)
    cases hu : hasSub U8 l with
    | false =>
      have hc0 : countOccs U8 l = 0 :=
        (countOccs_zero_iff U8 l (by decide)).mpr hu
      have hn' : ps.length = sumCount U8 rest := by
        rw [hn, sumCount_cons, hc0]
        omega
      obtain ⟨out, ho, hlen, hu0, hp9, hid, hrep⟩ := ih ps h1r h2r h3r hn'
      have hstep : save_locations_to_def (l :: rest) ps =
          (save_locations_to_def rest ps).map (fun r => (l :: r.1, r.2)) := by
        simp [save_locations_to_def, hu]
      refine ⟨l :: out, ?_, by simp [hlen], ?_, ?_, ?_, ?_⟩
      · rw [hstep, ho]
        rfl
      · rw [sumCount_cons, hc0, hu0]
      · rw [sumCount_cons, (countOccs_zero_iff P9 l (by decide)).mpr
          (h3 l (List.mem_cons_self _ _)), hp9]
        omega
      · intro i l' hi hsub
        cases i with
        | zero =>
          simp only [List.getElem?_cons_zero] at hi ⊢
          exact hi
        | succ j =>
          simp only [List.getElem?_cons_succ] at hi ⊢
          exact hid j l' hi hsub
      · intro i l' hi hsub
        cases i with
        | zero =>
          simp only [List.getElem?_cons_zero] at hi
          injection hi with hi
          subst hi
          rw [hsub] at hu
          exact Bool.noConfusion hu
        | succ j =>
          simp only [List.getElem?_cons_succ] at hi ⊢
          exact hrep j l' hi hsub
    | true =>
      have hc1 : countOccs U8 l = 1 := h1 l (List.mem_cons_self _ _) hu
      rw [sumCount_cons, hc1] at hn
      cases ps with
      | nil => simp only [List.length_nil] at hn; omega
      | cons p ps' =>
        obtain ⟨x, y⟩ := p
        have hn' : ps'.length = sumCount U8 rest := by
          simp only [List.length_cons] at hn
          omega
        obtain ⟨out, ho, hlen, hu0, hp9, hid, hrep⟩ := ih ps' h1r h2r h3r hn'
        have hstep : save_locations_to_def (l :: rest) ((x, y) :: ps') =
            (save_locations_to_def rest ps').map (fun r =>
              (replaceFirst U8 (placedClause x y) l :: r.1, r.2)) := by
          simp [save_locations_to_def, hu]
        obtain ⟨r0, r1⟩ := replaceFirst_counts l x y hc1
          (h2 l (List.mem_cons_self _ _)) (h3 l (List.mem_cons_self _ _))
        refine ⟨replaceFirst U8 (placedClause x y) l :: out, ?_,
          by simp [hlen], ?_, ?_, ?_, ?_⟩
        · rw [hstep, ho]
          rfl
        · rw [sumCount_cons, r0, hu0]
        · rw [sumCount_cons, r1, hp9]
          simp only [List.length_cons]
          omega
        · intro i l' hi hsub
          cases i with
          | zero =>
            simp only [List.getElem?_cons_zero] at hi
            injection hi with hi
            subst hi
            rw [hsub] at hu
            exact Bool.noConfusion hu
          | succ j =>
            simp only [List.getElem?_cons_succ] at hi ⊢
            exact hid j l' hi hsub
        · intro i l' hi hsub
          cases i with
          | zero =>
            simp only [List.getElem?_cons_zero] at hi ⊢
            injection hi with hi
            subst hi
            exact ⟨x, y, rfl⟩
          | succ j =>
            simp only [List.getElem?_cons_succ] at hi ⊢
            exact hrep j l' hi hsub

/-- C5, witness: the amended statement on `injLinesSample` with a single
position pair. -/
theorem c5_witness :
    ∃ out, save_locations_to_def injLinesSample [(10, 20)] = .ok (out, false) ∧
      out.length = injLinesSample.length ∧
      sumCount U8 out = 0 ∧
      sumCount P9 out = ([((10 : Int), (20 : Int))]).length ∧
      (∀ (i : Nat) (l' : List Char), injLinesSample[i]? = some l' →
        hasSub U8 l' = false → out[i]? = some l') ∧
      (∀ (i : Nat) (l' : List Char), injLinesSample[i]? = some l' →
        hasSub U8 l' = true →
        ∃ x y, out[i]? = some (replaceFirst U8 (placedClause x y) l')) :=
  c5_injection_round_trip injLinesSample [(10, 20)] (by decide) (by decide)
    (by decide) (by decide)
